import Mathlib

/-!
Shallow embedding of the bounded-load consistent hash ring
(`consistent.h` / the main implementation file, `hasher.h`/`hasher.cpp`,
`member.h`).  Machine integers (`uint64_t`) are modelled as `Nat` with
explicit `% 2 ^ 64` where overflow can occur (the FNV-1a multiply);
`double` load factors are modelled as exact rationals `lNum / lDen`
(the C++ values 1.25, 1.0, 0.5 used here are exactly representable, and
the comparisons `load + 1 <= avg_load` involve integers far from the
rounding error of the double computation, so the rational model agrees
with the double one on everything proved below).  Member objects are
identified by their stable `String()` name, as the code itself keys every
map by that name.  Fallible code (`throw`) is modelled by `Option` /
an explicit `didThrow` flag.
-/

set_option maxRecDepth 4096

namespace Consistent

/-- The `Hasher` capability `Sum64`: bytes to a 64-bit value. -/
abbrev Hasher := List Nat → Nat

/-- Bytes of an (ASCII) member name / key string, as the C++ code casts each
`char` to `uint8_t`. -/
def strBytes (s : String) : List Nat := s.data.map (fun c => c.toNat % 256)

/-- One step of FNV-1a 64-bit: XOR the byte, then multiply by the prime,
modulo 2^64 (`FNVHasher::Sum64`). -/
def fnvStep (h b : Nat) : Nat := ((h ^^^ (b % 256)) * 1099511628211) % (2 ^ 64)

/-- Function `FNVHasher::Sum64` over a byte sequence, offset basis 14695981039346656037. -/
def fnv64 (bs : List Nat) : Nat := bs.foldl fnvStep 14695981039346656037

/-- Configuration (`struct Config`): partition count `P`, replication factor
`R`, and the load factor as the exact rational `lNum / lDen`. -/
structure Config where
  partition_count : Nat
  replication_factor : Nat
  lNum : Nat
  lDen : Nat
deriving Repr, DecidableEq

/-- Zero-value defaulting performed by the constructor: P=271, R=20, L=1.25. -/
def applyDefaults (c : Config) : Config :=
  { partition_count := if c.partition_count = 0 then 271 else c.partition_count
    replication_factor := if c.replication_factor = 0 then 20 else c.replication_factor
    lNum := if c.lNum = 0 then 5 else c.lNum
    lDen := if c.lNum = 0 then 4 else c.lDen }

/-- Ceiling of `a / b` on naturals (the `std::ceil` of the exact quotient). -/
def ceilDiv (a b : Nat) : Nat := (a + b - 1) / b

/-- Validation `Consistent::ValidateConfig`: with `M > 0`, reject when
`ceil((P / M) * L) > 2 * R`.  Returns `true` when the configuration is
accepted.  An empty member set is always accepted. -/
def validateConfig (member_count : Nat) (c : Config) : Bool :=
  if member_count = 0 then true
  else ceilDiv (c.partition_count * c.lNum) (member_count * c.lDen)
         ≤ 2 * c.replication_factor

/-- Lookup in the virtual-node ring map `ring_` (hash position to member name). -/
def ringLookup (l : List (Nat × String)) (h : Nat) : Option String :=
  (l.find? (fun e => e.1 == h)).map (·.2)

/-- Placeholder member name used when a hash is missing from the ring map
(the C++ would be out of range there; unreached under the hypotheses of the
theorems below). -/
def missingMember : String := ""

/-- Source operation `ring_[h] = member`: insert-or-overwrite, keys stay unique. -/
def ringInsert (l : List (Nat × String)) (h : Nat) (m : String) :
    List (Nat × String) :=
  if l.any (fun e => e.1 == h) then
    l.map (fun e => if e.1 == h then (e.1, m) else e)
  else (h, m) :: l

/-- Source operation `ring_.erase(h)`. -/
def ringErase (l : List (Nat × String)) (h : Nat) : List (Nat × String) :=
  l.filter (fun e => !(e.1 == h))

/-- Read of `loads[name]` (absent entries read as 0; the C++ `operator[]`
zero-entry it creates is only observable when placement later fails,
see the comments at the placement walk). -/
def lookupLoad (l : List (String × Nat)) (m : String) : Nat :=
  ((l.find? (fun e => e.1 == m)).map (·.2)).getD 0

/-- Source operation `loads[name]++`: increment the (unique) entry of `name`, creating it at 1
if absent. -/
def bumpLoad : List (String × Nat) → String → List (String × Nat)
  | [], m => [(m, 1)]
  | e :: l, m => if e.1 == m then (e.1, e.2 + 1) :: l else e :: bumpLoad l m

/-- Total number of partitions recorded in a load map. -/
def sumLoads (l : List (String × Nat)) : Nat := (l.map (·.2)).sum

/-- Key builder `BuildVirtualNodeKey`: bytes of the member name followed by the ASCII
decimal representation of the index, no separator. -/
def vnodeKey (name : String) (i : Nat) : List Nat := strBytes (name ++ toString i)

/-- The `R` virtual-node hash positions of a member, in index order. -/
def vnodeHashes (hasher : Hasher) (R : Nat) (name : String) : List Nat :=
  (List.range R).map (fun i => hasher (vnodeKey name i))

/-- The ring state: `members_` (registry key set, in insertion order),
`ring_`, `sorted_set_`, `partitions_` (index `p` holds the owner of
partition `p`; the assignment loop fills ids in ascending order so a list
is a faithful image of the map), `loads_`. -/
structure RingState where
  P : Nat
  R : Nat
  lNum : Nat
  lDen : Nat
  hasher : Hasher
  members : List String
  ring : List (Nat × String)
  sorted : List Nat
  partitions : List String
  loads : List (String × Nat)

/-- Ascending sort of the `sorted_set_` array (`std::sort`). -/
def sortNat (l : List Nat) : List Nat := List.insertionSort (· ≤ ·) l

/-- The 8-byte little-endian encoding loop of `DistributePartitions`
(`bs[i] = (part_id >> (i*8)) & 0xFF`). -/
def leBytesDistribute (part_id : Nat) : List Nat :=
  (List.range 8).map (fun i => (part_id >>> (i * 8)) &&& 255)

/-- The 8-byte little-endian encoding loop of
`CalculatePartitionsWithRingAndMemberCount` (textually the same loop). -/
def leBytesCalc (part_id : Nat) : List Nat :=
  (List.range 8).map (fun i => (part_id >>> (i * 8)) &&& 255)

/-- The `std::lower_bound` index: first index whose value is `≥ key`
(= length when none). -/
def lowerBoundIdx (sorted : List Nat) (key : Nat) : Nat :=
  sorted.findIdx (fun h => decide (key ≤ h))

/-- The bounded-load walk shared by `DistributeWithLoad` and the inner loop of
`CalculatePartitionsWithRingAndMemberCount` (the two loops are textually
identical except for the acceptance bound, which is passed in as `accept`):
increment the step counter, give up (`InsufficientSpace`, here `none`) once it
reaches the array size, otherwise examine the candidate at `idx` and either
assign or advance with wrap-around.  The second component counts how many
candidates were examined.  A hash absent from the ring map reads as the
member `""` (the C++ would be out-of-range there; every state considered in
the theorems below keeps `sorted_set_` inside `ring_`'s key set). -/
def distWalkAux (ringL : List (Nat × String)) (sorted : List Nat)
    (accept : Nat → Bool) (loads : List (String × Nat)) :
    Nat → Nat → Nat → Option String × Nat
  | 0, _, _ => (none, 0)
  | fuel + 1, idx, count =>
    if sorted.length ≤ count + 1 then (none, 0)
    else
      let hsh := sorted.getD idx 0
      let m := (ringLookup ringL hsh).getD missingMember
      if accept (lookupLoad loads m) then (some m, 1)
      else
        let next := if sorted.length ≤ idx + 1 then 0 else idx + 1
        let r := distWalkAux ringL sorted accept loads fuel next (count + 1)
        (r.1, r.2 + 1)

def distWalk (ringL : List (Nat × String)) (sorted : List Nat)
    (accept : Nat → Bool) (loads : List (String × Nat))
    (idx count : Nat) : Option String × Nat :=
  distWalkAux ringL sorted accept loads (sorted.length - count) idx count

/-- Unfolding: `distWalk` satisfies the recursive equation of the source loop (the
structural `fuel = size - count` of `distWalkAux` only makes the descent
explicit; it is never exhausted before the counter check fires). -/
theorem distWalk_eq (ringL : List (Nat × String)) (sorted : List Nat)
    (accept : Nat → Bool) (loads : List (String × Nat)) (idx count : Nat) :
    distWalk ringL sorted accept loads idx count =
    if sorted.length ≤ count + 1 then (none, 0)
    else
      let hsh := sorted.getD idx 0
      let m := (ringLookup ringL hsh).getD missingMember
      if accept (lookupLoad loads m) then (some m, 1)
      else
        let next := if sorted.length ≤ idx + 1 then 0 else idx + 1
        let r := distWalk ringL sorted accept loads next (count + 1)
        (r.1, r.2 + 1) := by
  unfold distWalk
  by_cases hc : sorted.length ≤ count + 1
  · rw [if_pos hc]
    cases hf : sorted.length - count with
    | zero => rfl
    | succ f => rw [distWalkAux, if_pos hc]
  · rw [if_neg hc]
    have hf : sorted.length - count = (sorted.length - (count + 1)) + 1 := by omega
    rw [hf, distWalkAux, if_neg hc]

/-- Construction-path acceptance (`DistributeWithLoad`): `load + 1 <= avg_load`
against the UN-ceiled average `(P / M) * L`, compared as exact rationals. -/
def acceptNoCeil (P lNum lDen M load : Nat) : Bool :=
  decide ((load + 1) * (M * lDen) ≤ P * lNum)

/-- Mutation-path acceptance: `load + 1 <= ceil((P / M) * L)`. -/
def acceptCeil (P lNum lDen M load : Nat) : Bool :=
  decide (load + 1 ≤ ceilDiv (P * lNum) (M * lDen))

/-- The partition loop shared by `DistributePartitions` and
`CalculatePartitionsWithRingAndMemberCount`: for each partition id, hash its
little-endian encoding, binary-search the start index (wrapping to 0 at the
end) and run the bounded-load walk; a failed walk propagates as `none`. -/
def calcFold (hasher : Hasher) (ringL : List (Nat × String))
    (sorted : List Nat) (accept : Nat → Bool) (encode : Nat → List Nat) :
    List Nat → List String → List (String × Nat) →
    Option (List String × List (String × Nat))
  | [], tbl, loads => some (tbl, loads)
  | p :: ps, tbl, loads =>
    let key := hasher (encode p)
    let idx0 := lowerBoundIdx sorted key
    let idx := if sorted.length ≤ idx0 then 0 else idx0
    match (distWalk ringL sorted accept loads idx 0).1 with
    | none => none
    | some m =>
      calcFold hasher ringL sorted accept encode ps (tbl ++ [m]) (bumpLoad loads m)

/-- Engine `Consistent::DistributePartitions` (construction path; un-ceiled cap,
operating on the state's own ring and sorted array). -/
def distributePartitions (st : RingState) :
    Option (List String × List (String × Nat)) :=
  calcFold st.hasher st.ring st.sorted
    (acceptNoCeil st.P st.lNum st.lDen st.members.length)
    leBytesDistribute (List.range st.P) [] []

/-- Engine `Consistent::CalculatePartitionsWithRingAndMemberCount` (ceiled cap,
explicit ring / sorted array / member count; empty member count returns
empty maps without error). -/
def calcPartitionsWith (st : RingState) (ringL : List (Nat × String))
    (sorted : List Nat) (M : Nat) :
    Option (List String × List (String × Nat)) :=
  if M = 0 then some ([], [])
  else calcFold st.hasher ringL sorted (acceptCeil st.P st.lNum st.lDen M)
    leBytesCalc (List.range st.P) [] []

/-- Method `Consistent::InitMember`: register the member (map insert: a duplicate
name overwrites, leaving the key set unchanged), add its `R` virtual nodes to
the ring map and push their hashes onto the sorted array, then re-sort. -/
def initMember (hasher : Hasher) (R : Nat) (st : RingState) (name : String) :
    RingState :=
  let hs := vnodeHashes hasher R name
  { st with
    members := if name ∈ st.members then st.members else st.members ++ [name]
    ring := hs.foldl (fun r h => ringInsert r h name) st.ring
    sorted := sortNat (st.sorted ++ hs) }

/-- The state fields of a freshly constructed, still-empty ring. -/
def emptyState (c : Config) (hasher : Hasher) : RingState :=
  { P := c.partition_count, R := c.replication_factor
    lNum := c.lNum, lDen := c.lDen, hasher := hasher
    members := [], ring := [], sorted := [], partitions := [], loads := [] }

/-- The constructor `Consistent::Consistent`: apply defaults, validate
(`none` on rejection), insert every initial member, then place all
partitions unless the member set is empty (`none` if placement throws). -/
def mkConsistent (cfg : Config) (hasher : Hasher) (names : List String) :
    Option RingState :=
  if validateConfig names.length (applyDefaults cfg) then
    let st0 := names.foldl
      (initMember hasher (applyDefaults cfg).replication_factor)
      (emptyState (applyDefaults cfg) hasher)
    if names.isEmpty then some st0
    else match distributePartitions st0 with
      | none => none
      | some (tbl, lds) => some { st0 with partitions := tbl, loads := lds }
  else none

/-- Method `Consistent::Add`.  Result: (`didThrow`, resulting state).  An existing
name returns immediately.  Otherwise the member is inserted into the
registry, its virtual nodes go into the ring and sorted array
(`AddToRing`), and only then does `CalculatePartitionsWithNewMember` run:
it copies the ALREADY-UPDATED ring and sorted array and inserts the new
member's hashes once more, so the temporary sorted array holds them twice.
If that placement throws, the exception propagates with the registry, ring
and sorted array already mutated (no rollback); the partition table and
load map are only replaced on success. -/
def addMember (st : RingState) (name : String) : Bool × RingState :=
  if name ∈ st.members then (false, st)
  else
    let hs := vnodeHashes st.hasher st.R name
    let st1 := { st with
      members := st.members ++ [name]
      ring := hs.foldl (fun r h => ringInsert r h name) st.ring
      sorted := sortNat (st.sorted ++ hs) }
    let tempRing := hs.foldl (fun r h => ringInsert r h name) st1.ring
    let tempSorted := sortNat (st1.sorted ++ hs)
    match calcPartitionsWith st1 tempRing tempSorted st1.members.length with
    | none => (true, st1)
    | some (tbl, lds) => (false, { st1 with partitions := tbl, loads := lds })

/-- Method `Consistent::RemoveByName`.  An absent name returns immediately.
Otherwise `CalculatePartitionsWithoutMember` first computes the placement on
the ring with the member's hashes filtered out and member count `M - 1`
(BEFORE any mutation, so a placement failure leaves the state untouched);
on success the hashes are erased from the ring map and (first occurrence
each, via `DelSlice`'s binary search) from the sorted array, the maps are
replaced (cleared when the last member leaves), and the registry entry is
erased. -/
def removeMember (st : RingState) (name : String) : Bool × RingState :=
  if name ∈ st.members then
    let hs := vnodeHashes st.hasher st.R name
    let tempRing := st.ring.filter (fun e => !(hs.contains e.1))
    let tempSorted := sortNat (tempRing.map (·.1))
    match calcPartitionsWith st tempRing tempSorted (st.members.length - 1) with
    | none => (true, st)
    | some (tbl, lds) =>
      let st1 := { st with
        ring := hs.foldl ringErase st.ring
        sorted := hs.foldl (fun s h => s.erase h) st.sorted
        members := st.members.erase name }
      if st.members.length = 1 then (false, { st1 with partitions := [], loads := [] })
      else (false, { st1 with partitions := tbl, loads := lds })
  else (false, st)

/-- Method `Consistent::LocateKey`: `nullptr` (`none`) when the ring is empty,
otherwise the partition table entry at `hasher(key) % P`
(`GetPartitionID` then `GetPartitionOwner`; an absent entry is `nullptr`). -/
def locateKey (st : RingState) (key : List Nat) : Option String :=
  if st.ring.isEmpty then none
  else st.partitions.get? (st.hasher key % st.P)

/-- The collection loop of `GetClosestN(int, int)`: walk the sorted array
forward from `idx` with wrap-around, appending each not-yet-seen member,
while fewer than `n` members are collected and not every registered member
has been seen.  (`result` and `seen` grow in lockstep in the C++, so one
accumulator suffices.)  The C++ loop has no step bound and spins forever if
the guard can never be satisfied; `fuel` makes the model total, and every
theorem below supplies `fuel = sorted.length`, which reaches the C++ result
whenever every registered member actually appears on the ring. -/
def closestLoop (ringL : List (Nat × String)) (sorted : List Nat)
    (memberCount n : Nat) : Nat → Nat → List String → List String
  | 0, _, acc => acc
  | fuel + 1, idx, acc =>
    if acc.length < n ∧ acc.length < memberCount then
      let hsh := sorted.getD idx 0
      let m := (ringLookup ringL hsh).getD missingMember
      let acc' := if m ∈ acc then acc else acc ++ [m]
      let next := if sorted.length ≤ idx + 1 then 0 else idx + 1
      closestLoop ringL sorted memberCount n fuel next acc'
    else acc

/-- Method `GetClosestN(int part_id, int count)` (private): re-check the member
count, fail on an empty sorted array or a missing partition owner
(`InsufficientMemberCountException`, here `none`), then anchor the walk at
the first sorted position `≥ hasher(owner.name)` (wrapping to 0) and
collect. -/
def getClosestNPart (st : RingState) (part_id count : Nat) :
    Option (List String) :=
  if st.members.length < count then none
  else if st.sorted.isEmpty then none
  else match st.partitions.get? part_id with
    | none => none
    | some owner =>
      let owner_key := st.hasher (strBytes owner)
      let idx0 := lowerBoundIdx st.sorted owner_key
      let idx := if st.sorted.length ≤ idx0 then 0 else idx0
      some (closestLoop st.ring st.sorted st.members.length count
        st.sorted.length idx [])

/-- The public `GetClosestN(key, count)`: `count <= 0` returns an empty list
before anything else; `count > members_.size()` throws
(`InsufficientMemberCountException`, here `none`); otherwise delegate with
the key's partition id. -/
def getClosestN (st : RingState) (key : List Nat) (n : Int) :
    Option (List String) :=
  if n ≤ 0 then some []
  else if (st.members.length : Int) < n then none
  else getClosestNPart st (st.hasher key % st.P) n.toNat

/-- Method `Consistent::AverageLoad` (un-ceiled, the published target), as an exact
rational; 0 when the ring is empty. -/
def averageLoad (st : RingState) : ℚ :=
  if st.members.length = 0 then 0
  else (st.P * st.lNum : ℚ) / (st.members.length * st.lDen)

/-- Sum of the recorded loads of a given member list. -/
def sumOver (members : List String) (loads : List (String × Nat)) : Nat :=
  (members.map (lookupLoad loads)).sum

/-! ### Load-map lemmas -/

theorem lookupLoad_bump_self (l : List (String × Nat)) (m : String) :
    lookupLoad (bumpLoad l m) m = lookupLoad l m + 1 := by
  induction l with
  | nil => simp [bumpLoad, lookupLoad, List.find?]
  | cons e l ih =>
    by_cases he : e.1 = m
    · have hb : (e.1 == m) = true := by simp [he]
      simp [bumpLoad, lookupLoad, List.find?, hb, he]
    · have hb : (e.1 == m) = false := by simp [he]
      simpa [bumpLoad, lookupLoad, List.find?, hb] using ih

theorem lookupLoad_bump_ne (l : List (String × Nat)) (m x : String)
    (hne : x ≠ m) : lookupLoad (bumpLoad l m) x = lookupLoad l x := by
  have hmx : (m == x) = false := by simp [Ne.symm hne]
  induction l with
  | nil => simp [bumpLoad, lookupLoad, List.find?, hmx]
  | cons e l ih =>
    by_cases he : e.1 = m
    · have hb : (e.1 == m) = true := by simp [he]
      have hbx : (e.1 == x) = false := by simp [he ▸ (Ne.symm hne)]
      simp [bumpLoad, lookupLoad, List.find?, hb, hbx, he, hmx]
    · have hb : (e.1 == m) = false := by simp [he]
      by_cases hex : e.1 = x
      · have hbx : (e.1 == x) = true := by simp [hex]
        simp [bumpLoad, lookupLoad, List.find?, hb, hbx]
      · have hbx : (e.1 == x) = false := by simp [hex]
        simpa [bumpLoad, lookupLoad, List.find?, hb, hbx] using ih

theorem sumLoads_bump (l : List (String × Nat)) (m : String) :
    sumLoads (bumpLoad l m) = sumLoads l + 1 := by
  induction l with
  | nil => rfl
  | cons e l ih =>
    by_cases he : e.1 = m
    · simp [bumpLoad, sumLoads, he]; omega
    · simp [bumpLoad, sumLoads, he] at ih ⊢; omega

theorem sumOver_bump (loads : List (String × Nat)) (m : String) :
    ∀ members : List String, m ∈ members → members.Nodup →
    sumOver members (bumpLoad loads m) = sumOver members loads + 1 := by
  intro members
  induction members with
  | nil => intro hm _; cases hm
  | cons a t ih =>
    intro hm hnd
    rcases List.mem_cons.mp hm with h | h
    · have ht : (t.map (lookupLoad (bumpLoad loads m))) = t.map (lookupLoad loads) :=
        List.map_congr_left (fun x hx => lookupLoad_bump_ne loads m x
          (by rintro rfl; exact (List.nodup_cons.mp hnd).1 (h ▸ hx)))
      simp only [sumOver, List.map_cons, List.sum_cons, ← h, lookupLoad_bump_self, ht]
      omega
    · have ham : a ≠ m := by rintro rfl; exact (List.nodup_cons.mp hnd).1 h
      have hih := ih h (List.nodup_cons.mp hnd).2
      simp only [sumOver, List.map_cons, List.sum_cons,
        lookupLoad_bump_ne loads m a ham] at hih ⊢
      omega

theorem sumOver_lower (loads : List (String × Nat)) (cap : Nat) :
    ∀ members : List String, (∀ x ∈ members, cap ≤ lookupLoad loads x) →
    members.length * cap ≤ sumOver members loads := by
  intro members
  induction members with
  | nil => intro _; simp [sumOver]
  | cons a t ih =>
    intro h
    have h1 := h a (List.mem_cons_self a t)
    have h2 := ih (fun x hx => h x (List.mem_cons_of_mem a hx))
    simp only [sumOver, List.map_cons, List.sum_cons, List.length_cons] at h2 ⊢
    have : (t.length + 1) * cap = t.length * cap + cap := by ring
    omega

/-! ### Modular-index lemmas (for the wrap-around walk) -/

theorem wrap_eq_mod (size idx : Nat) (h : idx < size) :
    (if size ≤ idx + 1 then 0 else idx + 1) = (idx + 1) % size := by
  by_cases hc : size ≤ idx + 1
  · have : idx + 1 = size := by omega
    simp [hc, this]
  · simp [hc, Nat.mod_eq_of_lt (by omega : idx + 1 < size)]

theorem add_mod_surj (size idx k : Nat) (h0 : 0 < size) (hk : k < size) :
    ∃ j, j < size ∧ (idx + j) % size = k := by
  refine ⟨(size + k - idx % size) % size, Nat.mod_lt _ h0, ?_⟩
  have hlt : idx % size < size := Nat.mod_lt _ h0
  rw [← Nat.mod_add_mod, Nat.add_mod_mod,
    show idx % size + (size + k - idx % size) = size + k by omega,
    Nat.add_mod_left, Nat.mod_eq_of_lt hk]

theorem add_mod_inj (size idx j1 j2 : Nat) (h1 : j1 < size) (h2 : j2 < size)
    (he : (idx + j1) % size = (idx + j2) % size) : j1 = j2 := by
  have : j1 % size = j2 % size :=
    Nat.ModEq.add_left_cancel' idx he
  rwa [Nat.mod_eq_of_lt h1, Nat.mod_eq_of_lt h2] at this

/-! ### Bounded-load walk lemmas -/

/-- A successful walk returns a member whose current load passed the
acceptance test. -/
theorem distWalk_fst_some (ringL : List (Nat × String)) (sorted : List Nat)
    (accept : Nat → Bool) (loads : List (String × Nat)) :
    ∀ fuel idx count m, sorted.length - count ≤ fuel →
    (distWalk ringL sorted accept loads idx count).1 = some m →
    accept (lookupLoad loads m) = true := by
  intro fuel
  induction fuel with
  | zero =>
    intro idx count m hf hw
    rw [distWalk_eq, if_pos (by omega : sorted.length ≤ count + 1)] at hw
    cases hw
  | succ fuel ih =>
    intro idx count m hf hw
    rw [distWalk_eq] at hw
    by_cases hc : sorted.length ≤ count + 1
    · rw [if_pos hc] at hw; cases hw
    · rw [if_neg hc] at hw
      simp only at hw
      by_cases ha :
          accept (lookupLoad loads ((ringLookup ringL (sorted.getD idx 0)).getD missingMember)) = true
      · rw [if_pos ha] at hw
        cases hw
        exact ha
      · rw [if_neg ha] at hw
        exact ih _ (count + 1) m (by omega) hw

/-- A successful walk returns a member that sits at some index of the
sorted array. -/
theorem distWalk_fst_some_at (ringL : List (Nat × String)) (sorted : List Nat)
    (accept : Nat → Bool) (loads : List (String × Nat)) :
    ∀ fuel idx count m, sorted.length - count ≤ fuel → idx < sorted.length →
    (distWalk ringL sorted accept loads idx count).1 = some m →
    ∃ i, i < sorted.length ∧ (ringLookup ringL (sorted.getD i 0)).getD missingMember = m := by
  intro fuel
  induction fuel with
  | zero =>
    intro idx count m hf _ hw
    rw [distWalk_eq, if_pos (by omega : sorted.length ≤ count + 1)] at hw
    cases hw
  | succ fuel ih =>
    intro idx count m hf hidx hw
    rw [distWalk_eq] at hw
    by_cases hc : sorted.length ≤ count + 1
    · rw [if_pos hc] at hw; cases hw
    · rw [if_neg hc] at hw
      simp only at hw
      by_cases ha :
          accept (lookupLoad loads ((ringLookup ringL (sorted.getD idx 0)).getD missingMember)) = true
      · rw [if_pos ha] at hw
        cases hw
        exact ⟨idx, hidx, rfl⟩
      · rw [if_neg ha] at hw
        have hnext : (if sorted.length ≤ idx + 1 then 0 else idx + 1) < sorted.length := by
          by_cases h : sorted.length ≤ idx + 1 <;> simp [h] <;> omega
        exact ih _ (count + 1) m (by omega) hnext hw

/-- A failed walk rejected the member at every index of the examined window
`(idx + j) % size` for `count + 1 + j < size`. -/
theorem distWalk_fst_none (ringL : List (Nat × String)) (sorted : List Nat)
    (accept : Nat → Bool) (loads : List (String × Nat)) :
    ∀ fuel idx count, sorted.length - count ≤ fuel → idx < sorted.length →
    (distWalk ringL sorted accept loads idx count).1 = none →
    ∀ j, count + 1 + j < sorted.length →
    accept (lookupLoad loads
      ((ringLookup ringL (sorted.getD ((idx + j) % sorted.length) 0)).getD missingMember)) = false := by
  intro fuel
  induction fuel with
  | zero => intro idx count hf _ _ j hj; omega
  | succ fuel ih =>
    intro idx count hf hidx hw j hj
    rw [distWalk_eq] at hw
    have hc : ¬ sorted.length ≤ count + 1 := by omega
    rw [if_neg hc] at hw
    simp only at hw
    by_cases ha :
        accept (lookupLoad loads ((ringLookup ringL (sorted.getD idx 0)).getD missingMember)) = true
    · rw [if_pos ha] at hw; cases hw
    · rw [if_neg ha] at hw
      cases j with
      | zero =>
        rw [Nat.add_zero, Nat.mod_eq_of_lt hidx]
        exact Bool.not_eq_true _ ▸ (Bool.eq_false_iff.mpr ha)
      | succ j' =>
        have h0 : 0 < sorted.length := by omega
        have hnext : (if sorted.length ≤ idx + 1 then 0 else idx + 1) < sorted.length := by
          by_cases h : sorted.length ≤ idx + 1 <;> simp [h] <;> omega
        have := ih _ (count + 1) (by omega) hnext hw j' (by omega)
        rwa [wrap_eq_mod _ _ hidx, Nat.mod_add_mod,
          show idx + 1 + j' = idx + (j' + 1) by omega] at this

/-- The walk examines at most `size - 1 - count` candidates. -/
theorem distWalk_snd_le (ringL : List (Nat × String)) (sorted : List Nat)
    (accept : Nat → Bool) (loads : List (String × Nat)) :
    ∀ fuel idx count, sorted.length - count ≤ fuel →
    (distWalk ringL sorted accept loads idx count).2 ≤ sorted.length - 1 - count := by
  intro fuel
  induction fuel with
  | zero =>
    intro idx count hf
    rw [distWalk_eq, if_pos (by omega : sorted.length ≤ count + 1)]
    exact Nat.zero_le _
  | succ fuel ih =>
    intro idx count hf
    rw [distWalk_eq]
    by_cases hc : sorted.length ≤ count + 1
    · rw [if_pos hc]
      exact Nat.zero_le _
    · rw [if_neg hc]
      simp only
      by_cases ha :
          accept (lookupLoad loads ((ringLookup ringL (sorted.getD idx 0)).getD missingMember)) = true
      · rw [if_pos ha]; simp; omega
      · rw [if_neg ha]
        have := ih (if sorted.length ≤ idx + 1 then 0 else idx + 1) (count + 1) (by omega)
        simp only
        omega

/-! ### Extracting witnesses from `countP` -/

theorem one_of_countP (p : Nat → Bool) :
    ∀ l : List Nat, 1 ≤ l.countP p →
    ∃ i, i < l.length ∧ p (l.getD i 0) = true := by
  intro l
  induction l with
  | nil => intro h; simp [List.countP_nil] at h
  | cons a t ih =>
    intro h
    by_cases hp : p a = true
    · exact ⟨0, by simp, hp⟩
    · rw [List.countP_cons, if_neg (by simpa using hp)] at h
      obtain ⟨i, hi, hpi⟩ := ih (by omega)
      exact ⟨i + 1, by simpa using hi, hpi⟩

theorem two_of_countP (p : Nat → Bool) :
    ∀ l : List Nat, 2 ≤ l.countP p →
    ∃ i1 i2, i1 < l.length ∧ i2 < l.length ∧ i1 ≠ i2 ∧
      p (l.getD i1 0) = true ∧ p (l.getD i2 0) = true := by
  intro l
  induction l with
  | nil => intro h; simp [List.countP_nil] at h
  | cons a t ih =>
    intro h
    by_cases hp : p a = true
    · rw [List.countP_cons, if_pos hp] at h
      obtain ⟨i, hi, hpi⟩ := one_of_countP p t (by omega)
      exact ⟨0, i + 1, by simp, by simpa using hi, by simp, hp, hpi⟩
    · rw [List.countP_cons, if_neg (by simpa using hp)] at h
      obtain ⟨i1, i2, hi1, hi2, hne, hp1, hp2⟩ := ih (by omega)
      exact ⟨i1 + 1, i2 + 1, by simpa using hi1, by simpa using hi2,
        by omega, hp1, hp2⟩

/-! ### Acceptance characterizations -/

theorem acceptCeil_iff (P lNum lDen M load : Nat) :
    acceptCeil P lNum lDen M load = true ↔
    load + 1 ≤ ceilDiv (P * lNum) (M * lDen) := by
  simp [acceptCeil]

theorem acceptNoCeil_iff (P lNum lDen M load : Nat) (h : 0 < M * lDen) :
    acceptNoCeil P lNum lDen M load = true ↔
    load + 1 ≤ (P * lNum) / (M * lDen) := by
  simp [acceptNoCeil, Nat.le_div_iff_mul_le h]

theorem div_le_ceilDiv (a b : Nat) : a / b ≤ ceilDiv a b := by
  cases b with
  | zero => simp [ceilDiv]
  | succ b => exact Nat.div_le_div_right (by omega)

/-! ### Partition-loop lemmas -/

/-- A successful partition loop adds one unit of load per processed
partition, extends the table by one entry per partition, and keeps every
load below the bound implied by the acceptance test. -/
theorem calcFold_props (hasher : Hasher) (ringL : List (Nat × String))
    (sorted : List Nat) (accept : Nat → Bool) (encode : Nat → List Nat)
    (cap : Nat) (hacc : ∀ load, accept load = true → load + 1 ≤ cap) :
    ∀ ps tbl loads out,
    calcFold hasher ringL sorted accept encode ps tbl loads = some out →
    sumLoads out.2 = sumLoads loads + ps.length ∧
    out.1.length = tbl.length + ps.length ∧
    ((∀ s, lookupLoad loads s ≤ cap) → ∀ s, lookupLoad out.2 s ≤ cap) := by
  intro ps
  induction ps with
  | nil =>
    intro tbl loads out h
    simp only [calcFold, Option.some.injEq] at h
    cases h
    simp
  | cons p ps ih =>
    intro tbl loads out h
    simp only [calcFold] at h
    cases hw : (distWalk ringL sorted accept loads
        (if sorted.length ≤ lowerBoundIdx sorted (hasher (encode p)) then 0
         else lowerBoundIdx sorted (hasher (encode p))) 0).1 with
    | none => rw [hw] at h; cases h
    | some m =>
      rw [hw] at h
      obtain ⟨s1, s2, s3⟩ := ih (tbl ++ [m]) (bumpLoad loads m) out h
      have hacc_m : accept (lookupLoad loads m) = true :=
        distWalk_fst_some ringL sorted accept loads sorted.length _ 0 m
          (by omega) hw
      refine ⟨?_, ?_, ?_⟩
      · rw [s1, sumLoads_bump]
        simp; omega
      · rw [s2]; simp; omega
      · intro hbound
        apply s3
        intro s
        by_cases hs : s = m
        · rw [hs, lookupLoad_bump_self]
          exact hacc _ hacc_m
        · rw [lookupLoad_bump_ne _ _ _ hs]
          exact hbound s

/-- Core safety of the placement walk: if every sorted entry resolves to a
registered member, every registered member occupies at least two slots of
the sorted array, the registry has no duplicate names, and total capacity
`M * cap` covers the partitions still to place, the loop cannot fail. -/
theorem calcFold_isSome (hasher : Hasher) (ringL : List (Nat × String))
    (sorted : List Nat) (accept : Nat → Bool) (encode : Nat → List Nat)
    (members : List String) (cap : Nat)
    (hacc : ∀ load, accept load = true ↔ load + 1 ≤ cap)
    (h1 : ∀ h ∈ sorted, (ringLookup ringL h).getD missingMember ∈ members)
    (h2 : ∀ m ∈ members,
      2 ≤ sorted.countP (fun h => (ringLookup ringL h).getD missingMember == m))
    (hnd : members.Nodup) :
    ∀ ps tbl loads,
    (∀ s, lookupLoad loads s ≤ cap) →
    sumOver members loads + ps.length ≤ members.length * cap →
    (calcFold hasher ringL sorted accept encode ps tbl loads).isSome := by
  intro ps
  induction ps with
  | nil => intro tbl loads _ _; simp [calcFold]
  | cons p ps ih =>
    intro tbl loads hbound hsum
    -- the member list is nonempty (otherwise no capacity at all)
    have hmem : members ≠ [] := by
      rintro rfl
      simp [sumOver] at hsum
    -- some member still has spare capacity
    obtain ⟨m0, hm0, hl0⟩ : ∃ m0 ∈ members, lookupLoad loads m0 < cap := by
      by_contra hall
      push_neg at hall
      have := sumOver_lower loads cap members hall
      simp only [List.length_cons] at hsum
      omega
    -- that member occurs at two distinct indices of the sorted array
    have hc2 := h2 m0 hm0
    have hlen2 : 2 ≤ sorted.length :=
      le_trans hc2 (List.countP_le_length _)
    simp only [calcFold]
    set idx := (if sorted.length ≤ lowerBoundIdx sorted (hasher (encode p)) then 0
        else lowerBoundIdx sorted (hasher (encode p))) with hidxdef
    have hidx : idx < sorted.length := by
      rw [hidxdef]
      by_cases h : sorted.length ≤ lowerBoundIdx sorted (hasher (encode p)) <;>
        simp [h] <;> omega
    cases hw : (distWalk ringL sorted accept loads idx 0).1 with
    | none =>
      exfalso
      obtain ⟨i1, i2, hi1, hi2, hne, hp1, hp2⟩ :=
        two_of_countP (fun h => (ringLookup ringL h).getD missingMember == m0) sorted hc2
      obtain ⟨j1, hj1, hje1⟩ := add_mod_surj sorted.length idx i1 (by omega) hi1
      obtain ⟨j2, hj2, hje2⟩ := add_mod_surj sorted.length idx i2 (by omega) hi2
      have hjne : j1 ≠ j2 := by
        intro h
        exact hne (hje1 ▸ hje2 ▸ (by rw [h]))
      have hacc0 : accept (lookupLoad loads m0) = true := (hacc _).mpr (by omega)
      have hrej := distWalk_fst_none ringL sorted accept loads sorted.length idx 0
        (by omega) hidx hw
      rcases (show j1 < sorted.length - 1 ∨ j2 < sorted.length - 1 by omega) with hj | hj
      · have := hrej j1 (by omega)
        rw [hje1, show (ringLookup ringL (sorted.getD i1 0)).getD missingMember = m0 from
          by simpa using hp1] at this
        rw [hacc0] at this
        cases this
      · have := hrej j2 (by omega)
        rw [hje2, show (ringLookup ringL (sorted.getD i2 0)).getD missingMember = m0 from
          by simpa using hp2] at this
        rw [hacc0] at this
        cases this
    | some m =>
      -- the walk placed the partition on a registered member
      have hmm : m ∈ members := by
        obtain ⟨i, hi, hmi⟩ := distWalk_fst_some_at ringL sorted accept loads
          sorted.length idx 0 m (by omega) hidx hw
        have : sorted.getD i 0 ∈ sorted := by
          rw [List.getD_eq_getElem?_getD, List.getElem?_eq_getElem hi]
          exact List.getElem_mem _
        exact hmi ▸ h1 _ this
      have haccm : accept (lookupLoad loads m) = true :=
        distWalk_fst_some ringL sorted accept loads sorted.length idx 0 m
          (by omega) hw
      apply ih (tbl ++ [m]) (bumpLoad loads m)
      · intro s
        by_cases hs : s = m
        · rw [hs, lookupLoad_bump_self]
          exact (hacc _).mp haccm
        · rw [lookupLoad_bump_ne _ _ _ hs]
          exact hbound s
      · rw [sumOver_bump loads m members hmm hnd]
        simp only [List.length_cons] at hsum
        omega

/-! ### Closest-member walk lemmas -/

/-- The member owning slot `i` of the sorted array. -/
def memberAt (ringL : List (Nat × String)) (sorted : List Nat) (i : Nat) :
    String :=
  (ringLookup ringL (sorted.getD i 0)).getD missingMember

/-- The members seen by a wrap-around walk of `fuel` steps from `idx`. -/
def windowNames (ringL : List (Nat × String)) (sorted : List Nat)
    (fuel idx : Nat) : List String :=
  (List.range fuel).map (fun j => memberAt ringL sorted ((idx + j) % sorted.length))

theorem windowNames_succ (ringL : List (Nat × String)) (sorted : List Nat)
    (fuel idx : Nat) (hidx : idx < sorted.length) :
    windowNames ringL sorted (fuel + 1) idx =
      memberAt ringL sorted idx ::
        windowNames ringL sorted fuel ((idx + 1) % sorted.length) := by
  unfold windowNames
  rw [List.range_succ_eq_map, List.map_cons, List.map_map]
  congr 1
  · rw [Nat.add_zero, Nat.mod_eq_of_lt hidx]
  · apply List.map_congr_left
    intro j _
    simp only [Function.comp_apply, Nat.mod_add_mod]
    congr 2
    omega

theorem nodup_subset_length {acc members : List String}
    (hnd : acc.Nodup) (hsub : ∀ x ∈ acc, x ∈ members) :
    acc.length ≤ members.length := by
  classical
  calc acc.length = acc.toFinset.card := (List.toFinset_card_of_nodup hnd).symm
  _ ≤ members.toFinset.card := Finset.card_le_card (by
      intro x hx
      simp only [List.mem_toFinset] at hx ⊢
      exact hsub x hx)
  _ ≤ members.length := List.toFinset_card_le _

/-- Invariant of the collection loop: the result is duplicate-free, stays
inside the registry, and has length `min n (number of distinct members in
the accumulator plus the walked window)`. -/
theorem closestLoop_spec (ringL : List (Nat × String)) (sorted : List Nat)
    (members : List String) (n : Nat) (hnd : members.Nodup)
    (h1 : ∀ h ∈ sorted, (ringLookup ringL h).getD missingMember ∈ members)
    (hn : n ≤ members.length) :
    ∀ fuel idx acc, idx < sorted.length → acc.Nodup →
    (∀ x ∈ acc, x ∈ members) → acc.length ≤ n →
    (closestLoop ringL sorted members.length n fuel idx acc).length =
      min n (acc ++ windowNames ringL sorted fuel idx).toFinset.card ∧
    (closestLoop ringL sorted members.length n fuel idx acc).Nodup ∧
    (∀ x ∈ closestLoop ringL sorted members.length n fuel idx acc, x ∈ members) := by
  intro fuel
  induction fuel with
  | zero =>
    intro idx acc _ hand hsub hlen
    simp only [closestLoop, windowNames, List.range_zero, List.map_nil,
      List.append_nil]
    refine ⟨?_, hand, hsub⟩
    rw [List.toFinset_card_of_nodup hand]
    omega
  | succ fuel ih =>
    intro idx acc hidx hand hsub hlen
    have h0 : 0 < sorted.length := by omega
    rw [closestLoop]
    by_cases hg : acc.length < n ∧ acc.length < members.length
    · rw [if_pos hg]
      simp only
      set m := (ringLookup ringL (sorted.getD idx 0)).getD missingMember with hm
      have hmm : m ∈ members := by
        apply h1
        rw [List.getD_eq_getElem?_getD, List.getElem?_eq_getElem hidx]
        exact List.getElem_mem _
      have hwrap : (if sorted.length ≤ idx + 1 then 0 else idx + 1) =
          (idx + 1) % sorted.length := wrap_eq_mod _ _ hidx
      have hnext : (idx + 1) % sorted.length < sorted.length := Nat.mod_lt _ h0
      have hwin : windowNames ringL sorted (fuel + 1) idx =
          m :: windowNames ringL sorted fuel ((idx + 1) % sorted.length) :=
        windowNames_succ ringL sorted fuel idx hidx
      by_cases hacc : m ∈ acc
      · rw [if_pos hacc, hwrap]
        obtain ⟨l1, l2, l3⟩ := ih ((idx + 1) % sorted.length) acc hnext hand hsub hlen
        refine ⟨?_, l2, l3⟩
        rw [l1, hwin]
        congr 1
        congr 1
        ext x
        simp only [List.mem_toFinset, List.mem_append, List.mem_cons]
        constructor
        · rintro (h | h)
          · tauto
          · tauto
        · rintro (h | rfl | h)
          · tauto
          · tauto
          · tauto
      · rw [if_neg hacc, hwrap]
        have hand' : (acc ++ [m]).Nodup := by
          simp [List.nodup_append, hand, hacc]
        have hsub' : ∀ x ∈ acc ++ [m], x ∈ members := by
          intro x hx
          rcases List.mem_append.mp hx with h | h
          · exact hsub x h
          · simp only [List.mem_singleton] at h
            exact h ▸ hmm
        have hlen' : (acc ++ [m]).length ≤ n := by
          simp only [List.length_append, List.length_singleton]
          omega
        obtain ⟨l1, l2, l3⟩ := ih ((idx + 1) % sorted.length) (acc ++ [m])
          hnext hand' hsub' hlen'
        refine ⟨?_, l2, l3⟩
        rw [l1, hwin]
        congr 1
        congr 1
        ext x
        simp only [List.mem_toFinset, List.mem_append, List.mem_cons,
          List.mem_singleton, List.not_mem_nil, or_false]
        tauto
    · rw [if_neg hg]
      push_neg at hg
      have hleM : acc.length ≤ members.length := nodup_subset_length hand hsub
      have haccn : acc.length = n := by
        by_cases hln : n ≤ acc.length
        · omega
        · push_neg at hln
          have := hg hln
          omega
      refine ⟨?_, hand, hsub⟩
      have hgecard : n ≤ (acc ++ windowNames ringL sorted (fuel + 1) idx).toFinset.card := by
        calc n = acc.toFinset.card := by
              rw [List.toFinset_card_of_nodup hand, haccn]
        _ ≤ _ := Finset.card_le_card (by
              intro x hx
              simp only [List.mem_toFinset, List.mem_append] at hx ⊢
              exact Or.inl hx)
      omega

/-- A full lap of the walk sees exactly the registered member set, provided
every slot resolves into the registry and every registered member occupies
at least one slot. -/
theorem windowNames_full (ringL : List (Nat × String)) (sorted : List Nat)
    (members : List String) (idx : Nat) (hidx : idx < sorted.length)
    (h1 : ∀ h ∈ sorted, (ringLookup ringL h).getD missingMember ∈ members)
    (hcov : ∀ m ∈ members,
      1 ≤ sorted.countP (fun h => (ringLookup ringL h).getD missingMember == m)) :
    (windowNames ringL sorted sorted.length idx).toFinset = members.toFinset := by
  ext x
  simp only [List.mem_toFinset, windowNames, List.mem_map, List.mem_range]
  constructor
  · rintro ⟨j, _, rfl⟩
    apply h1
    have hlt : (idx + j) % sorted.length < sorted.length :=
      Nat.mod_lt _ (by omega)
    rw [List.getD_eq_getElem?_getD, List.getElem?_eq_getElem hlt]
    exact List.getElem_mem _
  · intro hx
    obtain ⟨i, hi, hpi⟩ := one_of_countP _ sorted (hcov x hx)
    obtain ⟨j, hj, hje⟩ := add_mod_surj sorted.length idx i (by omega) hi
    exact ⟨j, hj, by unfold memberAt; rw [hje]; simpa using hpi⟩

/-! ### Table/load sizes without a cap hypothesis -/

theorem calcFold_lengths (hasher : Hasher) (ringL : List (Nat × String))
    (sorted : List Nat) (accept : Nat → Bool) (encode : Nat → List Nat) :
    ∀ ps tbl loads out,
    calcFold hasher ringL sorted accept encode ps tbl loads = some out →
    sumLoads out.2 = sumLoads loads + ps.length ∧
    out.1.length = tbl.length + ps.length := by
  intro ps
  induction ps with
  | nil =>
    intro tbl loads out h
    simp only [calcFold, Option.some.injEq] at h
    cases h
    simp
  | cons p ps ih =>
    intro tbl loads out h
    simp only [calcFold] at h
    cases hw : (distWalk ringL sorted accept loads
        (if sorted.length ≤ lowerBoundIdx sorted (hasher (encode p)) then 0
         else lowerBoundIdx sorted (hasher (encode p))) 0).1 with
    | none => rw [hw] at h; cases h
    | some m =>
      rw [hw] at h
      obtain ⟨s1, s2⟩ := ih (tbl ++ [m]) (bumpLoad loads m) out h
      rw [s1, sumLoads_bump, s2]
      simp
      omega

/-! ### Ring-map bookkeeping for add/remove -/

theorem ringLookup_none_notin (l : List (Nat × String)) (h : Nat)
    (hl : ringLookup l h = none) : ∀ e ∈ l, e.1 ≠ h := by
  intro e he
  simp only [ringLookup, Option.map_eq_none'] at hl
  have := List.find?_eq_none.mp hl e he
  simpa using this

theorem filter_overwrite (hs0 : List Nat) (h : Nat) (nm : String)
    (hh : hs0.contains h = true) :
    ∀ acc : List (Nat × String),
    ((acc.map (fun e => if e.1 == h then (e.1, nm) else e)).filter
      (fun e => !(hs0.contains e.1))) =
    acc.filter (fun e => !(hs0.contains e.1)) := by
  intro acc
  induction acc with
  | nil => rfl
  | cons e l ih =>
    by_cases he : e.1 = h
    · have hmemh : h ∈ hs0 := by simpa using hh
      have hmem : e.1 ∈ hs0 := he ▸ hmemh
      simp only [List.map_cons, List.filter_cons] at ih ⊢
      simp [he, hmem, hmemh] at ih ⊢
      exact ih
    · by_cases hc : e.1 ∈ hs0
      · simp [he, hc] at ih ⊢
        exact ih
      · simp [he, hc] at ih ⊢
        simp [ih]

theorem filter_ringInsert (hs0 : List Nat) (h : Nat) (nm : String)
    (hh : hs0.contains h = true) (acc : List (Nat × String)) :
    ((ringInsert acc h nm).filter (fun e => !(hs0.contains e.1))) =
    acc.filter (fun e => !(hs0.contains e.1)) := by
  unfold ringInsert
  by_cases ha : acc.any (fun e => e.1 == h) = true
  · rw [if_pos ha]
    exact filter_overwrite hs0 h nm hh acc
  · rw [if_neg ha, List.filter_cons]
    have hmem : h ∈ hs0 := by simpa using hh
    simp [hmem]

theorem filter_fold_insert (hs0 : List Nat) (nm : String) :
    ∀ (hs : List Nat) (acc : List (Nat × String)),
    (∀ h ∈ hs, hs0.contains h = true) →
    ((hs.foldl (fun r h => ringInsert r h nm) acc).filter
      (fun e => !(hs0.contains e.1))) =
      acc.filter (fun e => !(hs0.contains e.1)) := by
  intro hs
  induction hs with
  | nil => intro acc _; rfl
  | cons h t ih =>
    intro acc hsub
    rw [List.foldl_cons, ih (ringInsert acc h nm)
      (fun x hx => hsub x (List.mem_cons_of_mem h hx)),
      filter_ringInsert hs0 h nm (hsub h (List.mem_cons_self h t)) acc]

theorem filter_eq_self_of_fresh (hs : List Nat) (l : List (Nat × String))
    (hd : ∀ h ∈ hs, ringLookup l h = none) :
    l.filter (fun e => !(hs.contains e.1)) = l := by
  apply List.filter_eq_self.mpr
  intro e he
  simp only [Bool.not_eq_true']
  rw [← Bool.not_eq_true]
  intro hc
  have hmem : e.1 ∈ hs := by simpa using hc
  exact ringLookup_none_notin l e.1 (hd e.1 hmem) e he rfl

theorem erase_append_singleton (l : List String) (x : String) (hx : x ∉ l) :
    (l ++ [x]).erase x = l := by
  rw [List.erase_append_right _ hx, List.erase_cons_head, List.append_nil]

/-! ### Constructed-state facts -/

theorem ringInsert_ne_nil (l : List (Nat × String)) (h : Nat) (m : String) :
    ringInsert l h m ≠ [] := by
  unfold ringInsert
  by_cases ha : l.any (fun e => e.1 == h) = true
  · rw [if_pos ha]
    intro hcon
    rw [List.map_eq_nil] at hcon
    subst hcon
    simp [List.any_nil] at ha
  · rw [if_neg ha]
    simp

theorem foldl_ringInsert_ne_nil (nm : String) :
    ∀ (hs : List Nat) (acc : List (Nat × String)),
    (acc ≠ [] ∨ hs ≠ []) →
    hs.foldl (fun r h => ringInsert r h nm) acc ≠ [] := by
  intro hs
  induction hs with
  | nil =>
    intro acc hd
    rcases hd with h | h
    · exact h
    · exact absurd rfl h
  | cons h t ih =>
    intro acc _
    rw [List.foldl_cons]
    exact ih (ringInsert acc h nm) (Or.inl (ringInsert_ne_nil acc h nm))

theorem initMember_ring_ne_nil (hasher : Hasher) (R : Nat) (st : RingState)
    (name : String) (hR : 0 < R) :
    (initMember hasher R st name).ring ≠ [] := by
  unfold initMember
  apply foldl_ringInsert_ne_nil
  right
  simp [vnodeHashes, List.range_eq_nil]
  omega

theorem fold_init_ring_ne_nil (hasher : Hasher) (R : Nat) (st : RingState)
    (names : List String) (hn : names ≠ []) (hR : 0 < R) :
    (names.foldl (initMember hasher R) st).ring ≠ [] := by
  induction names generalizing st with
  | nil => exact absurd rfl hn
  | cons a t ih =>
    rw [List.foldl_cons]
    by_cases ht : t = []
    · subst ht
      exact initMember_ring_ne_nil hasher R st a hR
    · exact ih (initMember hasher R st a) ht

theorem applyDefaults_P_pos (c : Config) :
    0 < (applyDefaults c).partition_count := by
  unfold applyDefaults
  simp only
  by_cases h : c.partition_count = 0 <;> simp [h] <;> omega

theorem applyDefaults_R_pos (c : Config) :
    0 < (applyDefaults c).replication_factor := by
  unfold applyDefaults
  simp only
  by_cases h : c.replication_factor = 0 <;> simp [h] <;> omega

theorem fold_init_fields (hasher : Hasher) (R : Nat) :
    ∀ (names : List String) (st : RingState),
    (names.foldl (initMember hasher R) st).P = st.P ∧
    (names.foldl (initMember hasher R) st).lNum = st.lNum ∧
    (names.foldl (initMember hasher R) st).lDen = st.lDen ∧
    (names.foldl (initMember hasher R) st).hasher = st.hasher ∧
    (names.foldl (initMember hasher R) st).partitions = st.partitions ∧
    (names.foldl (initMember hasher R) st).loads = st.loads := by
  intro names
  induction names with
  | nil => intro st; exact ⟨rfl, rfl, rfl, rfl, rfl, rfl⟩
  | cons a t ih =>
    intro st
    rw [List.foldl_cons]
    exact ih (initMember hasher R st a)

theorem initMember_members_ne_nil (hasher : Hasher) (R : Nat)
    (st : RingState) (name : String) :
    (initMember hasher R st name).members ≠ [] := by
  unfold initMember
  simp only
  by_cases h : name ∈ st.members
  · rw [if_pos h]
    intro hcon
    rw [hcon] at h
    cases h
  · rw [if_neg h]
    simp

theorem fold_init_members_ne_nil (hasher : Hasher) (R : Nat) :
    ∀ (names : List String) (st : RingState), names ≠ [] →
    (names.foldl (initMember hasher R) st).members ≠ [] := by
  intro names
  induction names with
  | nil => intro st h; exact absurd rfl h
  | cons a t ih =>
    intro st _
    rw [List.foldl_cons]
    by_cases ht : t = []
    · subst ht
      exact initMember_members_ne_nil hasher R st a
    · exact ih (initMember hasher R st a) ht

/-! ### Concrete instances used by counterexamples and witnesses

All use the FNV-1a hasher from `hasher.cpp` and small explicit
configurations (no zero fields, so defaulting is the identity on them). -/

/-- P=7, R=2, L=1.25: passes validation with three members, yet the
construction walk fails (3·⌊7/3·1.25⌋ = 6 < 7 under the un-ceiled cap). -/
def cfgSeven : Config :=
  { partition_count := 7, replication_factor := 2, lNum := 5, lDen := 4 }

/-- P=4, R=2, L=0.5: valid for an empty member set; a first Add then has
ceiled cap 2 < 4 and must throw. -/
def cfgHalf : Config :=
  { partition_count := 4, replication_factor := 2, lNum := 1, lDen := 2 }

/-- P=5, R=2, L=1.25 with two members: constructible, and the cap binds. -/
def cfgFive : Config :=
  { partition_count := 5, replication_factor := 2, lNum := 5, lDen := 4 }

/-- P=6, R=2, L=1.25: constructible with two or three members. -/
def cfgSix : Config :=
  { partition_count := 6, replication_factor := 2, lNum := 5, lDen := 4 }

/-- The ring built over members a, b, c with `cfgSix`. -/
def stSix : RingState :=
  (mkConsistent cfgSix fnv64 ["a", "b", "c"]).getD
    (emptyState (applyDefaults cfgSix) fnv64)

/-- The ring built over members a, b with `cfgFive`. -/
def stFive : RingState :=
  (mkConsistent cfgFive fnv64 ["a", "b"]).getD
    (emptyState (applyDefaults cfgFive) fnv64)

/-- The empty ring built with `cfgHalf`. -/
def stHalf : RingState :=
  (mkConsistent cfgHalf fnv64 []).getD
    (emptyState (applyDefaults cfgHalf) fnv64)

/-- The ring built over members a, b with `cfgSix` (for the mutation chain). -/
def stSixAB : RingState :=
  (mkConsistent cfgSix fnv64 ["a", "b"]).getD
    (emptyState (applyDefaults cfgSix) fnv64)

/-- An artificial state whose sorted array is empty while two members are
registered: removing one then runs placement over an empty array, which
throws. -/
def stBroken : RingState :=
  { P := 1, R := 1, lNum := 1, lDen := 1, hasher := fnv64
    members := ["a", "b"], ring := [], sorted := []
    partitions := [], loads := [] }

theorem sumOver_loads_nil (members : List String) : sumOver members [] = 0 := by
  induction members with
  | nil => rfl
  | cons a t ih =>
    simp only [sumOver, List.map_cons, List.sum_cons] at ih ⊢
    rw [ih]
    rfl

/-! ### Claims -/

/-- C9: for every partition id, the key hashed by the placement engine is
exactly the 8-byte little-endian encoding of the id: the byte list built by
`DistributePartitions` equals the one built by
`CalculatePartitionsWithRingAndMemberCount`, has length 8, and its `i`-th
byte holds bits `8i..8i+7` of the id (`p / 2^(8i) mod 256`); the two
placement paths pass precisely these bytes to the hasher
(`distributePartitions` uses `leBytesDistribute`, `calcPartitionsWith` uses
`leBytesCalc`, definitionally). -/
theorem claim9_le_encoding (p : Nat) :
    leBytesDistribute p = leBytesCalc p ∧
    (leBytesDistribute p).length = 8 ∧
    ∀ i, i < 8 → (leBytesDistribute p).getD i 0 = p / 2 ^ (8 * i) % 256 := by
  refine ⟨rfl, by simp [leBytesDistribute], ?_⟩
  intro i hi
  have h1 : (leBytesDistribute p).getD i 0 = (p >>> (i * 8)) &&& 255 := by
    unfold leBytesDistribute
    rw [List.getD_eq_getElem?_getD, List.getElem?_map, List.getElem?_range hi]
    rfl
  rw [h1, Nat.shiftRight_eq_div_pow,
    Nat.and_pow_two_sub_one_eq_mod _ 8, Nat.mul_comm i 8]

/-- C9 witness: the encoding property at the concrete id 300, byte 1. -/
theorem claim9_le_encoding_witness :
    (1 : Nat) < 8 ∧ (leBytesDistribute 300).getD 1 0 = 300 / 2 ^ (8 * 1) % 256 :=
  ⟨by decide, (claim9_le_encoding 300).2.2 1 (by decide)⟩

/-- C10: the bounded-load walk is a total function that either returns an
owner (`some`) or gives up (`none`, the InsufficientSpace throw); because
the step counter is incremented and checked against the array size before
each candidate is examined, it examines at most `|sorted| - 1` candidates,
and with a single-entry sorted array it gives up having examined none. -/
theorem claim10_walk_bounded (ringL : List (Nat × String)) (sorted : List Nat)
    (accept : Nat → Bool) (loads : List (String × Nat)) (idx : Nat) :
    (distWalk ringL sorted accept loads idx 0).2 ≤ sorted.length - 1 ∧
    (sorted.length = 1 → distWalk ringL sorted accept loads idx 0 = (none, 0)) := by
  constructor
  · have := distWalk_snd_le ringL sorted accept loads sorted.length idx 0 (by omega)
    omega
  · intro h1
    rw [distWalk_eq, if_pos (by omega : sorted.length ≤ 0 + 1)]

/-- C10 witness: the bound and the single-entry case at concrete inputs. -/
theorem claim10_walk_bounded_witness :
    (distWalk [(3, "a")] [3] (fun _ => true) [] 0 0).2 ≤ [3].length - 1 ∧
    ([3].length = 1 ∧ distWalk [(3, "a")] [3] (fun _ => true) [] 0 0 = (none, 0)) :=
  ⟨(claim10_walk_bounded [(3, "a")] [3] (fun _ => true) [] 0).1,
   by decide,
   (claim10_walk_bounded [(3, "a")] [3] (fun _ => true) [] 0).2 (by decide)⟩

/-- C2 counterexample: the empty ring under `cfgHalf` (accepted by
validation) mutates on a failing `Add`: the call throws, yet afterwards the
registry contains the new member — Add is not failure-atomic. -/
theorem claim2_counterexample :
    (addMember stHalf ("a")).1 = true ∧
    (addMember stHalf ("a")).2.members ≠ stHalf.members ∧
    (addMember stHalf ("a")).2.sorted ≠ stHalf.sorted := by
  refine ⟨rfl, ?_, ?_⟩ <;> decide

/-- C2 amended: `RemoveByName` is failure-atomic (its placement runs before
any mutation, so a throw leaves the state untouched), but `Add` is not:
when its placement throws, the partition table and load map do keep their
prior values, yet the new member remains in the registry (and its virtual
nodes in the ring and sorted array) — the membership change is not rolled
back. -/
theorem claim2_amended (st : RingState) (name : String) :
    ((removeMember st name).1 = true → (removeMember st name).2 = st) ∧
    ((addMember st name).1 = true →
      (addMember st name).2.partitions = st.partitions ∧
      (addMember st name).2.loads = st.loads ∧
      (addMember st name).2.members = st.members ++ [name] ∧
      (addMember st name).2 ≠ st) := by
  constructor
  · intro hthrow
    unfold removeMember at hthrow ⊢
    by_cases h : name ∈ st.members
    · simp only [if_pos h] at hthrow ⊢
      split at hthrow
      · next heq =>
        simp only [heq]
      · next out heq =>
        split at hthrow <;> cases hthrow
    · simp only [if_neg h] at hthrow
      cases hthrow
  · intro hthrow
    unfold addMember at hthrow ⊢
    by_cases h : name ∈ st.members
    · simp only [if_pos h] at hthrow
      cases hthrow
    · simp only [if_neg h] at hthrow ⊢
      split at hthrow
      · next heq =>
        refine ⟨rfl, rfl, rfl, ?_⟩
        intro he
        have hm := congrArg RingState.members he
        simp only at hm
        have hlen := congrArg List.length hm
        simp at hlen
      · next out heq =>
        cases hthrow

/-- C2 amended witness: a concrete throwing remove (empty sorted array with
two registered members) leaves the state untouched, and the concrete
throwing add of "a" to the empty `cfgHalf` ring keeps table and loads but
not the registry. -/
theorem claim2_amended_witness :
    ((removeMember stBroken ("a")).1 = true ∧
      (removeMember stBroken ("a")).2 = stBroken) ∧
    ((addMember stHalf ("a")).1 = true ∧
      (addMember stHalf ("a")).2.partitions = stHalf.partitions ∧
      (addMember stHalf ("a")).2.loads = stHalf.loads ∧
      (addMember stHalf ("a")).2.members = stHalf.members ++ ["a"] ∧
      (addMember stHalf ("a")).2 ≠ stHalf) :=
  ⟨⟨rfl, (claim2_amended stBroken ("a")).1 rfl⟩,
   ⟨rfl, (claim2_amended stHalf ("a")).2 rfl⟩⟩

/-- C1 counterexample: the member set a, b, c with P=7, R=2, L=1.25 is
accepted by construction-time validation (cap ⌈(7/3)·1.25⌉ = 3 ≤ 2R = 4),
yet construction itself raises InsufficientSpace: the construction walk
caps members at the un-ceiled average, leaving capacity 3·⌊2.92⌋ = 6 < 7. -/
theorem claim1_counterexample :
    validateConfig 3 (applyDefaults cfgSeven) = true ∧
    ((["a", "b", "c"] : List String).length = 3) ∧
    mkConsistent cfgSeven fnv64 ["a", "b", "c"] = none :=
  ⟨rfl, rfl, rfl⟩

/-- C1 amended: validation alone does not prevent InsufficientSpace; the
walk never fails provided moreover (i) every sorted entry resolves to a
registered member, (ii) every registered member occupies at least two
slots of the sorted array (true for distinct virtual-node hashes with
R ≥ 2), (iii) the registry has no duplicate names, and (iv)
`M·⌊(P/M)·L⌋ ≥ P` — then neither the construction placement
(`DistributePartitions`, un-ceiled cap) nor the add/remove placement
(`CalculatePartitionsWithRingAndMemberCount`, ceiled cap) over the same
index can raise InsufficientSpace. -/
theorem claim1_amended (st : RingState) (M : Nat) (hM : M = st.members.length)
    (hnd : st.members.Nodup)
    (h1 : ∀ h ∈ st.sorted, (ringLookup st.ring h).getD missingMember ∈ st.members)
    (h2 : ∀ m ∈ st.members,
      2 ≤ st.sorted.countP (fun h => (ringLookup st.ring h).getD missingMember == m))
    (hden : 0 < M * st.lDen)
    (hcap : st.P ≤ M * ((st.P * st.lNum) / (M * st.lDen))) :
    (distributePartitions st).isSome ∧
    (calcPartitionsWith st st.ring st.sorted M).isSome := by
  subst hM
  constructor
  · unfold distributePartitions
    apply calcFold_isSome st.hasher st.ring st.sorted _ leBytesDistribute
      st.members ((st.P * st.lNum) / (st.members.length * st.lDen))
      (fun load => acceptNoCeil_iff st.P st.lNum st.lDen st.members.length load hden)
      h1 h2 hnd (List.range st.P) [] []
      (fun s => Nat.zero_le _)
    rw [sumOver_loads_nil, List.length_range]
    simpa using hcap
  · unfold calcPartitionsWith
    have hMpos : 0 < st.members.length := by
      rcases Nat.eq_zero_or_pos st.members.length with h | h
      · rw [h] at hden; simp at hden
      · exact h
    rw [if_neg (by omega : ¬ st.members.length = 0)]
    apply calcFold_isSome st.hasher st.ring st.sorted _ leBytesCalc
      st.members (ceilDiv (st.P * st.lNum) (st.members.length * st.lDen))
      (fun load => acceptCeil_iff st.P st.lNum st.lDen st.members.length load)
      h1 h2 hnd (List.range st.P) [] []
      (fun s => Nat.zero_le _)
    rw [sumOver_loads_nil, List.length_range, Nat.zero_add]
    calc st.P ≤ st.members.length * ((st.P * st.lNum) / (st.members.length * st.lDen)) := hcap
    _ ≤ st.members.length * ceilDiv (st.P * st.lNum) (st.members.length * st.lDen) :=
      Nat.mul_le_mul_left _ (div_le_ceilDiv _ _)

/-- C1 amended witness: the sufficient conditions hold for the concrete
a/b/c ring under `cfgSix`, and both placement paths succeed on it. -/
theorem claim1_amended_witness :
    (3 = stSix.members.length ∧ stSix.members.Nodup ∧
      (∀ h ∈ stSix.sorted, (ringLookup stSix.ring h).getD missingMember ∈ stSix.members) ∧
      (∀ m ∈ stSix.members,
        2 ≤ stSix.sorted.countP (fun h => (ringLookup stSix.ring h).getD missingMember == m)) ∧
      0 < 3 * stSix.lDen ∧
      stSix.P ≤ 3 * ((stSix.P * stSix.lNum) / (3 * stSix.lDen))) ∧
    (distributePartitions stSix).isSome ∧
    (calcPartitionsWith stSix stSix.ring stSix.sorted 3).isSome :=
  ⟨⟨by decide, by decide, by decide, by decide, by decide, by decide⟩,
   claim1_amended stSix 3 (by decide) (by decide) (by decide) (by decide)
     (by decide) (by decide)⟩

/-- C6 counterexample: a reachable ring with a registered member on which
`LocateKey` returns `nullptr` rather than a member stored in the partition
table: after the throwing `Add` of "a" to the empty `cfgHalf` ring, the
ring is non-empty but no partition table was ever installed, so the lookup
at `hasher(key) mod P` finds nothing. -/
theorem claim6_counterexample :
    (addMember stHalf ("a")).2.members ≠ [] ∧
    (addMember stHalf ("a")).2.ring ≠ [] ∧
    locateKey (addMember stHalf ("a")).2 [0] = none :=
  ⟨by decide, by decide, rfl⟩

/-- C6 amended: on every state of the ring, `LocateKey` returns `none`
(not an error) when the ring is empty, and otherwise returns exactly the
partition-table entry at index `hasher(key) mod P`; that entry is a member
whenever the table is total, and the table is total (with `P` positive and
the ring non-empty) after every successful construction with a non-empty
member set, after every non-throwing `Add` of a fresh name, and after
every non-throwing `RemoveByName` that does not remove the last member —
but a throwing `Add` can leave a non-empty ring with no table installed,
where `LocateKey` returns `none` despite the registered member. -/
theorem claim6_locate_semantics (st : RingState) :
    (st.ring = [] → ∀ key, locateKey st key = none) ∧
    (st.ring ≠ [] → ∀ key,
      locateKey st key = st.partitions.get? (st.hasher key % st.P)) ∧
    (st.ring ≠ [] → st.partitions.length = st.P → 0 < st.P → ∀ key,
      ∃ m, locateKey st key = some m ∧
        st.partitions.get? (st.hasher key % st.P) = some m) ∧
    (∀ cfg hasher names, names ≠ [] →
      mkConsistent cfg hasher names = some st →
      st.partitions.length = st.P ∧ 0 < st.P ∧ st.ring ≠ []) ∧
    (∀ st0 name, name ∉ st0.members → addMember st0 name = (false, st) →
      st.partitions.length = st.P) ∧
    (∀ st0 name, name ∈ st0.members → 2 ≤ st0.members.length →
      removeMember st0 name = (false, st) → st.partitions.length = st.P) := by
  refine ⟨?_, ?_, ?_, ?_, ?_, ?_⟩
  · intro hring key
    unfold locateKey
    rw [if_pos (by simpa [List.isEmpty_iff] using hring)]
  · intro hring key
    unfold locateKey
    rw [if_neg (by simpa [List.isEmpty_iff] using hring)]
  · intro hring hplen hP key
    have hidx : st.hasher key % st.P < st.partitions.length := by
      rw [hplen]
      exact Nat.mod_lt _ hP
    refine ⟨st.partitions.get ⟨st.hasher key % st.P, hidx⟩, ?_,
      List.get?_eq_get hidx⟩
    unfold locateKey
    rw [if_neg (by simpa [List.isEmpty_iff] using hring)]
    exact List.get?_eq_get hidx
  · intro cfg hasher names hne hmk
    by_cases hv : validateConfig names.length (applyDefaults cfg) = true
    · have hEmp : names.isEmpty = false := by
        cases names with
        | nil => exact absurd rfl hne
        | cons a t => rfl
      rw [mkConsistent] at hmk
      rw [if_pos hv] at hmk
      simp only [hEmp, Bool.false_eq_true, if_false] at hmk
      cases hd : distributePartitions (names.foldl
          (initMember hasher (applyDefaults cfg).replication_factor)
          (emptyState (applyDefaults cfg) hasher)) with
      | none => rw [hd] at hmk; cases hmk
      | some out =>
        obtain ⟨tbl, lds⟩ := out
        rw [hd] at hmk
        simp only [Option.some.injEq] at hmk
        subst hmk
        set st0 := names.foldl
          (initMember hasher (applyDefaults cfg).replication_factor)
          (emptyState (applyDefaults cfg) hasher) with hst0
        have hfields := fold_init_fields hasher
          (applyDefaults cfg).replication_factor names
          (emptyState (applyDefaults cfg) hasher)
        have hplen : tbl.length = st0.P := by
          unfold distributePartitions at hd
          have := (calcFold_lengths st0.hasher st0.ring st0.sorted _ _ _ _ _ _ hd).2
          simpa using this
        have hPpos : 0 < st0.P := by
          have : st0.P = (applyDefaults cfg).partition_count := hfields.1
          rw [this]
          exact applyDefaults_P_pos cfg
        have hring : st0.ring ≠ [] := by
          rw [hst0]
          exact fold_init_ring_ne_nil hasher _ _ names hne (applyDefaults_R_pos cfg)
        exact ⟨hplen, hPpos, hring⟩
    · rw [mkConsistent, if_neg hv] at hmk
      cases hmk
  · intro st0 name hmem hadd
    unfold addMember at hadd
    simp only [if_neg hmem] at hadd
    split at hadd
    · next heq => simp at hadd
    · next tbl lds heq =>
      simp only [Prod.mk.injEq, true_and] at hadd
      subst hadd
      have hM1 : (st0.members ++ [name]).length ≠ 0 := by simp
      rw [calcPartitionsWith, if_neg (by simpa using hM1)] at heq
      have := (calcFold_lengths st0.hasher _ _ _ _ _ _ _ _ heq).2
      simpa using this
  · intro st0 name hmem hlen hrem
    unfold removeMember at hrem
    simp only [if_pos hmem] at hrem
    split at hrem
    · next heq => simp at hrem
    · next tbl lds heq =>
      rw [if_neg (by omega : ¬ st0.members.length = 1)] at hrem
      simp only [Prod.mk.injEq, true_and] at hrem
      subst hrem
      have hM1 : ¬ (st0.members.length - 1 = 0) := by omega
      rw [calcPartitionsWith, if_neg hM1] at heq
      have := (calcFold_lengths st0.hasher _ _ _ _ _ _ _ _ heq).2
      simpa using this

/-- C6 amended witness: the empty-ring branch on the concrete `cfgHalf`
ring, the total-table branch on the concrete a/b/c ring, and table
totality after the concrete construction, add, and remove. -/
theorem claim6_locate_semantics_witness :
    (stHalf.ring = [] ∧ locateKey stHalf [0] = none) ∧
    (stSix.ring ≠ [] ∧ stSix.partitions.length = stSix.P ∧ 0 < stSix.P ∧
      (∃ m, locateKey stSix [0] = some m ∧
        stSix.partitions.get? (stSix.hasher [0] % stSix.P) = some m)) ∧
    ((["a", "b", "c"] : List String) ≠ [] ∧
      stSix.partitions.length = stSix.P ∧ 0 < stSix.P ∧ stSix.ring ≠ []) ∧
    ("c" ∉ stSixAB.members ∧
      (addMember stSixAB ("c")).2.partitions.length =
        (addMember stSixAB ("c")).2.P) ∧
    ("b" ∈ (addMember stSixAB ("c")).2.members ∧
      2 ≤ (addMember stSixAB ("c")).2.members.length ∧
      (removeMember (addMember stSixAB ("c")).2 ("b")).2.partitions.length =
        (removeMember (addMember stSixAB ("c")).2 ("b")).2.P) :=
  ⟨⟨by decide, (claim6_locate_semantics stHalf).1 (by decide) [0]⟩,
   ⟨by decide, by decide, by decide,
    (claim6_locate_semantics stSix).2.2.1 (by decide) (by decide) (by decide) [0]⟩,
   ⟨by decide,
    (claim6_locate_semantics stSix).2.2.2.1 cfgSix fnv64 ["a", "b", "c"]
      (by decide) rfl⟩,
   ⟨by decide,
    (claim6_locate_semantics (addMember stSixAB ("c")).2).2.2.2.2.1 stSixAB ("c")
      (by decide) rfl⟩,
   ⟨by decide, by decide,
    (claim6_locate_semantics
        (removeMember (addMember stSixAB ("c")).2 ("b")).2).2.2.2.2.2
      (addMember stSixAB ("c")).2 ("b") (by decide) (by decide) rfl⟩⟩

/-- C5 counterexample: a public-method boundary of a non-empty ring where
the load map does not sum to P: after the throwing `Add` of "a" to the
empty `cfgHalf` ring, the registry and ring are non-empty but the load map
is still empty (sum 0 ≠ P = 4). -/
theorem claim5_counterexample :
    (addMember stHalf ("a")).2.members ≠ [] ∧
    (addMember stHalf ("a")).2.ring ≠ [] ∧
    sumLoads (addMember stHalf ("a")).2.loads = 0 ∧
    (addMember stHalf ("a")).2.P = 4 := by
  refine ⟨by decide, by decide, rfl, rfl⟩

/-- C5 amended: at every boundary reached by a SUCCESSFUL operation the
invariant holds — after construction with a non-empty member set, after an
`Add` of a fresh name that does not throw, and after a `RemoveByName` of a
registered name that does not throw and leaves the ring non-empty, the
load map sums to exactly P and no member's load exceeds ⌈(P/M)·L⌉ for the
current member count M (the construction path even respects the stricter
un-ceiled cap). -/
theorem claim5_invariant :
    (∀ cfg hasher names st, names ≠ [] →
      mkConsistent cfg hasher names = some st → 0 < st.lDen →
      sumLoads st.loads = st.P ∧
      ∀ s, lookupLoad st.loads s ≤
        ceilDiv (st.P * st.lNum) (st.members.length * st.lDen)) ∧
    (∀ st name st', name ∉ st.members → addMember st name = (false, st') →
      sumLoads st'.loads = st'.P ∧
      ∀ s, lookupLoad st'.loads s ≤
        ceilDiv (st'.P * st'.lNum) (st'.members.length * st'.lDen)) ∧
    (∀ st name st', name ∈ st.members → 2 ≤ st.members.length →
      removeMember st name = (false, st') →
      sumLoads st'.loads = st'.P ∧
      ∀ s, lookupLoad st'.loads s ≤
        ceilDiv (st'.P * st'.lNum) (st'.members.length * st'.lDen)) := by
  refine ⟨?_, ?_, ?_⟩
  · intro cfg hasher names st hne hmk hden
    by_cases hv : validateConfig names.length (applyDefaults cfg) = true
    · have hEmp : names.isEmpty = false := by
        cases names with
        | nil => exact absurd rfl hne
        | cons a t => rfl
      rw [mkConsistent, if_pos hv] at hmk
      simp only [hEmp, Bool.false_eq_true, if_false] at hmk
      set st0 := names.foldl
        (initMember hasher (applyDefaults cfg).replication_factor)
        (emptyState (applyDefaults cfg) hasher) with hst0
      cases hd : distributePartitions st0 with
      | none => rw [hd] at hmk; cases hmk
      | some out =>
        obtain ⟨tbl, lds⟩ := out
        rw [hd] at hmk
        simp only [Option.some.injEq] at hmk
        subst hmk
        have hMpos : 0 < st0.members.length := by
          have := fold_init_members_ne_nil hasher
            (applyDefaults cfg).replication_factor names
            (emptyState (applyDefaults cfg) hasher) hne
          rw [← hst0] at this
          exact List.length_pos.mpr this
        have hdenM : 0 < st0.members.length * st0.lDen :=
          Nat.mul_pos hMpos hden
        unfold distributePartitions at hd
        have hprops := calcFold_props st0.hasher st0.ring st0.sorted
          (acceptNoCeil st0.P st0.lNum st0.lDen st0.members.length)
          leBytesDistribute
          ((st0.P * st0.lNum) / (st0.members.length * st0.lDen))
          (fun load hl =>
            (acceptNoCeil_iff st0.P st0.lNum st0.lDen st0.members.length load hdenM).mp hl)
          (List.range st0.P) [] [] (tbl, lds) hd
        refine ⟨?_, ?_⟩
        · have := hprops.1
          simpa [sumLoads] using this
        · intro s
          have hb := hprops.2.2 (fun s => Nat.zero_le _) s
          calc lookupLoad lds s
              ≤ (st0.P * st0.lNum) / (st0.members.length * st0.lDen) := hb
          _ ≤ ceilDiv (st0.P * st0.lNum) (st0.members.length * st0.lDen) :=
            div_le_ceilDiv _ _
    · rw [mkConsistent, if_neg hv] at hmk
      cases hmk
  · intro st name st' hmem hadd
    unfold addMember at hadd
    simp only [if_neg hmem] at hadd
    split at hadd
    · next heq => simp at hadd
    · next tbl lds heq =>
      simp only [Prod.mk.injEq, true_and] at hadd
      subst hadd
      have hM1 : (st.members ++ [name]).length ≠ 0 := by simp
      rw [calcPartitionsWith, if_neg (by simpa using hM1)] at heq
      have hprops := calcFold_props st.hasher _ _
        (acceptCeil st.P st.lNum st.lDen (st.members ++ [name]).length)
        leBytesCalc
        (ceilDiv (st.P * st.lNum) ((st.members ++ [name]).length * st.lDen))
        (fun load hl =>
          (acceptCeil_iff st.P st.lNum st.lDen (st.members ++ [name]).length load).mp hl)
        (List.range st.P) [] [] (tbl, lds) heq
      refine ⟨by simpa [sumLoads] using hprops.1, ?_⟩
      intro s
      exact hprops.2.2 (fun s => Nat.zero_le _) s
  · intro st name st' hmem hlen hrem
    unfold removeMember at hrem
    simp only [if_pos hmem] at hrem
    split at hrem
    · next heq => simp at hrem
    · next tbl lds heq =>
      rw [if_neg (by omega : ¬ st.members.length = 1)] at hrem
      simp only [Prod.mk.injEq, true_and] at hrem
      subst hrem
      have hM1 : ¬ (st.members.length - 1 = 0) := by omega
      rw [calcPartitionsWith, if_neg hM1] at heq
      have hprops := calcFold_props st.hasher _ _
        (acceptCeil st.P st.lNum st.lDen (st.members.length - 1))
        leBytesCalc
        (ceilDiv (st.P * st.lNum) ((st.members.length - 1) * st.lDen))
        (fun load hl =>
          (acceptCeil_iff st.P st.lNum st.lDen (st.members.length - 1) load).mp hl)
        (List.range st.P) [] [] (tbl, lds) heq
      have herase : (st.members.erase name).length = st.members.length - 1 :=
        List.length_erase_of_mem hmem
      refine ⟨by simpa [sumLoads] using hprops.1, ?_⟩
      intro s
      have := hprops.2.2 (fun s => Nat.zero_le _) s
      simpa [herase] using this

/-- C5 witness: the invariant after the concrete construction of the a/b
ring, after adding "c" to it, and after then removing "b". -/
theorem claim5_invariant_witness :
    ((["a", "b"] : List String) ≠ [] ∧ 0 < stSixAB.lDen ∧
      sumLoads stSixAB.loads = stSixAB.P) ∧
    ("c" ∉ stSixAB.members ∧
      sumLoads (addMember stSixAB ("c")).2.loads = (addMember stSixAB ("c")).2.P) ∧
    ("b" ∈ (addMember stSixAB ("c")).2.members ∧
      2 ≤ (addMember stSixAB ("c")).2.members.length ∧
      sumLoads (removeMember (addMember stSixAB ("c")).2 ("b")).2.loads =
        (removeMember (addMember stSixAB ("c")).2 ("b")).2.P) :=
  ⟨⟨by decide, by decide,
    (claim5_invariant.1 cfgSix fnv64 ["a", "b"] stSixAB (by decide) rfl
      (by decide)).1⟩,
   ⟨by decide,
    (claim5_invariant.2.1 stSixAB ("c") (addMember stSixAB ("c")).2 (by decide)
      rfl).1⟩,
   ⟨by decide, by decide,
    (claim5_invariant.2.2 (addMember stSixAB ("c")).2 ("b")
      (removeMember (addMember stSixAB ("c")).2 ("b")).2 (by decide) (by decide)
      rfl).1⟩⟩

/-- The fields of the state right after `Add` of a fresh name, whether or
not its placement threw: the registry, ring and sorted array are updated
the same way in both branches. -/
theorem addMember_fields (st : RingState) (name : String)
    (hmem : name ∉ st.members) :
    (addMember st name).2.members = st.members ++ [name] ∧
    (addMember st name).2.ring =
      (vnodeHashes st.hasher st.R name).foldl
        (fun r h => ringInsert r h name) st.ring ∧
    (addMember st name).2.sorted =
      sortNat (st.sorted ++ vnodeHashes st.hasher st.R name) ∧
    (addMember st name).2.P = st.P ∧
    (addMember st name).2.R = st.R ∧
    (addMember st name).2.lNum = st.lNum ∧
    (addMember st name).2.lDen = st.lDen ∧
    (addMember st name).2.hasher = st.hasher := by
  unfold addMember
  simp only [if_neg hmem]
  split <;> exact ⟨rfl, rfl, rfl, rfl, rfl, rfl, rfl, rfl⟩

/-- Congruence: `CalculatePartitionsWithRingAndMemberCount` reads only the
configuration fields of the state. -/
theorem calcPartitionsWith_congr (st1 st2 : RingState)
    (r : List (Nat × String)) (s : List Nat) (M : Nat)
    (hP : st1.P = st2.P) (hN : st1.lNum = st2.lNum)
    (hD : st1.lDen = st2.lDen) (hH : st1.hasher = st2.hasher) :
    calcPartitionsWith st1 r s M = calcPartitionsWith st2 r s M := by
  unfold calcPartitionsWith
  rw [hP, hN, hD, hH]

/-- Characterization of a successful `RemoveByName` (not the last member):
the new table and loads are whatever the placement computed, and the
registry drops the name. -/
theorem removeMember_calc (st2 : RingState) (name : String)
    (hmem2 : name ∈ st2.members) (hlen : ¬ st2.members.length = 1)
    (tbl : List String) (lds : List (String × Nat))
    (hc : calcPartitionsWith st2
        (st2.ring.filter
          (fun e => !((vnodeHashes st2.hasher st2.R name).contains e.1)))
        (sortNat ((st2.ring.filter
          (fun e => !((vnodeHashes st2.hasher st2.R name).contains e.1))).map (·.1)))
        (st2.members.length - 1) = some (tbl, lds)) :
    (removeMember st2 name).2.partitions = tbl ∧
    (removeMember st2 name).2.loads = lds ∧
    (removeMember st2 name).2.members = st2.members.erase name := by
  unfold removeMember
  simp only [if_pos hmem2]
  rw [hc]
  dsimp only
  rw [if_neg hlen]
  exact ⟨rfl, rfl, rfl⟩

/-- C3 counterexample: on the freshly constructed a/b ring with P=5, R=2,
L=1.25, the round trip add(c); remove_by_name(c) does NOT restore the
partition table or the load map: construction placed with the un-ceiled
cap 3 (table a,a,a,b,b) while the round trip re-placed with the ceiled
cap 4 (table a,a,a,a,b). -/
theorem claim3_counterexample :
    ((mkConsistent cfgFive fnv64 ["a", "b"]).map (fun st => st.partitions))
      = some ["a", "a", "a", "b", "b"] ∧
    ((mkConsistent cfgFive fnv64 ["a", "b"]).map (fun st =>
      (removeMember (addMember st ("c")).2 ("c")).2.partitions))
      = some ["a", "a", "a", "a", "b"] ∧
    ((mkConsistent cfgFive fnv64 ["a", "b"]).map (fun st =>
      lookupLoad st.loads ("a"))) = some 3 ∧
    ((mkConsistent cfgFive fnv64 ["a", "b"]).map (fun st =>
      lookupLoad (removeMember (addMember st ("c")).2 ("c")).2.loads ("a"))) = some 4 ∧
    (["a", "a", "a", "a", "b"] : List String) ≠ ["a", "a", "a", "b", "b"] :=
  ⟨rfl, rfl, rfl, rfl, by decide⟩

/-- C3 amended: for a fresh member whose virtual-node hashes miss the
existing ring, add(m); remove_by_name(m.name()) leaves the partition table
and load map equal to the CEILED-cap placement of the original ring and
member count (and restores the registry); hence the round trip restores
the table and loads bit-for-bit exactly when the pre-add state itself was
produced by that ceiled placement — true after any previous add/remove,
but not in general for a freshly constructed ring, whose placement uses
the un-ceiled cap. -/
theorem claim3_roundtrip (st : RingState) (name : String)
    (hmem : name ∉ st.members) (hne : st.members ≠ [])
    (hsorted : st.sorted = sortNat (st.ring.map (·.1)))
    (hfresh : ∀ h ∈ vnodeHashes st.hasher st.R name,
      ringLookup st.ring h = none)
    (tbl : List String) (lds : List (String × Nat))
    (hcalc : calcPartitionsWith st st.ring st.sorted st.members.length
      = some (tbl, lds)) :
    (removeMember (addMember st name).2 name).2.partitions = tbl ∧
    (removeMember (addMember st name).2 name).2.loads = lds ∧
    (removeMember (addMember st name).2 name).2.members = st.members ∧
    (st.partitions = tbl → st.loads = lds →
      (removeMember (addMember st name).2 name).2.partitions = st.partitions ∧
      (removeMember (addMember st name).2 name).2.loads = st.loads) := by
  obtain ⟨hfm, hfr, hfs, hfP, hfR, hfN, hfD, hfH⟩ := addMember_fields st name hmem
  set st2 := (addMember st name).2 with hst2
  have hhs : vnodeHashes st2.hasher st2.R name = vnodeHashes st.hasher st.R name := by
    rw [hfH, hfR]
  have hmem2 : name ∈ st2.members := by
    rw [hfm]
    simp
  have hlen2 : ¬ st2.members.length = 1 := by
    rw [hfm]
    have : st.members.length ≠ 0 := fun h => hne (List.length_eq_zero.mp h)
    simp only [List.length_append, List.length_singleton]
    omega
  have hring : st2.ring.filter
      (fun e => !((vnodeHashes st2.hasher st2.R name).contains e.1)) = st.ring := by
    rw [hhs, hfr]
    rw [filter_fold_insert (vnodeHashes st.hasher st.R name) name
      (vnodeHashes st.hasher st.R name) st.ring (fun h hh => by simpa using hh)]
    exact filter_eq_self_of_fresh _ _ hfresh
  have hsorted2 : sortNat ((st2.ring.filter
      (fun e => !((vnodeHashes st2.hasher st2.R name).contains e.1))).map (·.1))
      = st.sorted := by
    rw [hring, ← hsorted]
  have hcount : st2.members.length - 1 = st.members.length := by
    rw [hfm]
    simp
  have hc : calcPartitionsWith st2
      (st2.ring.filter
        (fun e => !((vnodeHashes st2.hasher st2.R name).contains e.1)))
      (sortNat ((st2.ring.filter
        (fun e => !((vnodeHashes st2.hasher st2.R name).contains e.1))).map (·.1)))
      (st2.members.length - 1) = some (tbl, lds) := by
    rw [hsorted2, hring, hcount,
      calcPartitionsWith_congr st2 st st.ring st.sorted st.members.length
        hfP hfN hfD hfH]
    exact hcalc
  obtain ⟨r1, r2, r3⟩ := removeMember_calc st2 name hmem2 hlen2 tbl lds hc
  refine ⟨r1, r2, ?_, fun h1 h2 => ⟨by rw [r1, h1], by rw [r2, h2]⟩⟩
  rw [r3, hfm]
  exact erase_append_singleton st.members name hmem

/-- C3 amended witness: the round trip on the concrete a/b ring under
`cfgFive` with the fresh member "c" yields exactly the ceiled placement of
the original ring. -/
theorem claim3_roundtrip_witness :
    ("c" ∉ stFive.members ∧ stFive.members ≠ [] ∧
      stFive.sorted = sortNat (stFive.ring.map (·.1)) ∧
      (∀ h ∈ vnodeHashes stFive.hasher stFive.R ("c"),
        ringLookup stFive.ring h = none) ∧
      calcPartitionsWith stFive stFive.ring stFive.sorted stFive.members.length
        = some (["a", "a", "a", "a", "b"], [("a", 4), ("b", 1)])) ∧
    (removeMember (addMember stFive ("c")).2 ("c")).2.partitions
      = ["a", "a", "a", "a", "b"] ∧
    (removeMember (addMember stFive ("c")).2 ("c")).2.loads = [("a", 4), ("b", 1)] ∧
    (removeMember (addMember stFive ("c")).2 ("c")).2.members = stFive.members :=
  ⟨⟨by decide, by decide, by decide, by decide, rfl⟩,
   (claim3_roundtrip stFive ("c") (by decide) (by decide) (by decide) (by decide)
     ["a", "a", "a", "a", "b"] [("a", 4), ("b", 1)] rfl).1,
   (claim3_roundtrip stFive ("c") (by decide) (by decide) (by decide) (by decide)
     ["a", "a", "a", "a", "b"] [("a", 4), ("b", 1)] rfl).2.1,
   (claim3_roundtrip stFive ("c") (by decide) (by decide) (by decide) (by decide)
     ["a", "a", "a", "a", "b"] [("a", 4), ("b", 1)] rfl).2.2.1⟩

/-- Successful `GetClosestN` on a well-formed state: with `0 < n ≤ M`, a
duplicate-free registry, every sorted slot resolving into the registry,
every member present on the ring, and a total partition table, the call
returns exactly `n` pairwise-distinct registered members; at `n = M` it
returns every member exactly once. -/
theorem getClosestN_spec (st : RingState) (key : List Nat) (n : Nat)
    (hnd : st.members.Nodup)
    (h1 : ∀ h ∈ st.sorted, (ringLookup st.ring h).getD missingMember ∈ st.members)
    (hcov : ∀ m ∈ st.members,
      1 ≤ st.sorted.countP (fun h => (ringLookup st.ring h).getD missingMember == m))
    (hplen : st.partitions.length = st.P) (hP : 0 < st.P)
    (hmem : st.members ≠ [])
    (hn1 : 0 < n) (hnM : n ≤ st.members.length) :
    ∃ l, getClosestN st key (n : Int) = some l ∧ l.length = n ∧ l.Nodup ∧
      (∀ x ∈ l, x ∈ st.members) ∧
      (n = st.members.length → ∀ m, m ∈ l ↔ m ∈ st.members) := by
  obtain ⟨m0, hm0⟩ : ∃ m0, m0 ∈ st.members :=
    List.exists_mem_of_ne_nil st.members hmem
  have hsortlen : 0 < st.sorted.length := by
    have := le_trans (hcov m0 hm0) (List.countP_le_length _)
    omega
  have hse : st.sorted ≠ [] := by
    intro h
    rw [h] at hsortlen
    simp at hsortlen
  unfold getClosestN
  rw [if_neg (by omega : ¬ ((n : Int) ≤ 0)),
    if_neg (by push_cast; omega : ¬ ((st.members.length : Int) < (n : Int))),
    Int.toNat_natCast]
  unfold getClosestNPart
  rw [if_neg (by omega : ¬ st.members.length < n),
    if_neg (by simpa [List.isEmpty_iff] using hse)]
  have hidxP : st.hasher key % st.P < st.partitions.length := by
    rw [hplen]
    exact Nat.mod_lt _ hP
  obtain ⟨owner, howner⟩ : ∃ o,
      st.partitions.get? (st.hasher key % st.P) = some o :=
    ⟨_, List.get?_eq_get hidxP⟩
  rw [howner]
  dsimp only
  set idx0 := lowerBoundIdx st.sorted (st.hasher (strBytes owner)) with hidx0
  have hidx : (if st.sorted.length ≤ idx0 then 0 else idx0) < st.sorted.length := by
    by_cases h : st.sorted.length ≤ idx0 <;> simp [h] <;> omega
  obtain ⟨l1, l2, l3⟩ := closestLoop_spec st.ring st.sorted st.members n hnd h1
    hnM st.sorted.length (if st.sorted.length ≤ idx0 then 0 else idx0) []
    hidx (by simp) (by simp) (by simp)
  have hwin := windowNames_full st.ring st.sorted st.members
    (if st.sorted.length ≤ idx0 then 0 else idx0) hidx h1 hcov
  have hlen : (closestLoop st.ring st.sorted st.members.length n
      st.sorted.length (if st.sorted.length ≤ idx0 then 0 else idx0) []).length = n := by
    rw [l1, List.nil_append, hwin, List.toFinset_card_of_nodup hnd]
    omega
  refine ⟨_, rfl, hlen, l2, l3, ?_⟩
  intro hnm m
  constructor
  · exact fun h => l3 m h
  · intro hm
    classical
    have hsub : (closestLoop st.ring st.sorted st.members.length n
        st.sorted.length (if st.sorted.length ≤ idx0 then 0 else idx0) []).toFinset
        ⊆ st.members.toFinset := by
      intro x hx
      simp only [List.mem_toFinset] at hx ⊢
      exact l3 x hx
    have hcard : st.members.toFinset.card ≤ (closestLoop st.ring st.sorted
        st.members.length n st.sorted.length
        (if st.sorted.length ≤ idx0 then 0 else idx0) []).toFinset.card := by
      rw [List.toFinset_card_of_nodup l2, hlen, hnm,
        List.toFinset_card_of_nodup hnd]
    have heq := Finset.eq_of_subset_of_card_le hsub hcard
    rw [← List.mem_toFinset, ← heq, List.mem_toFinset] at hm
    exact hm

/-- C7 counterexample: a ring with one registered member (reached by the
failing `Add` of "a" to the empty `cfgHalf` ring) on which
`closest_n(key, 1)` — an input with `0 < n ≤ M` — still throws
InsufficientMembers, because the partition table was never installed. -/
theorem claim7_counterexample :
    (addMember stHalf ("a")).2.members.length = 1 ∧
    getClosestN (addMember stHalf ("a")).2 [0] 1 = none :=
  ⟨rfl, rfl⟩

/-- C7 amended: on every ring whose partition table is total and whose
members all sit on the ring (every state reached by successful
construction and mutations), `closest_n` returns an empty result without
error for `n ≤ 0`, throws InsufficientMembers exactly when `n > M`, and
for every `0 < n ≤ M` succeeds with exactly `n` members. -/
theorem claim7_closest_errors (st : RingState)
    (hnd : st.members.Nodup)
    (h1 : ∀ h ∈ st.sorted, (ringLookup st.ring h).getD missingMember ∈ st.members)
    (hcov : ∀ m ∈ st.members,
      1 ≤ st.sorted.countP (fun h => (ringLookup st.ring h).getD missingMember == m))
    (hplen : st.partitions.length = st.P) (hP : 0 < st.P)
    (hmem : st.members ≠ []) :
    (∀ (key : List Nat) (n : Int), n ≤ 0 → getClosestN st key n = some []) ∧
    (∀ (key : List Nat) (n : Int), (st.members.length : Int) < n →
      getClosestN st key n = none) ∧
    (∀ (key : List Nat) (n : Nat), 0 < n → n ≤ st.members.length →
      ∃ l, getClosestN st key (n : Int) = some l ∧ l.length = n) := by
  refine ⟨?_, ?_, ?_⟩
  · intro key n hn
    unfold getClosestN
    rw [if_pos hn]
  · intro key n hn
    unfold getClosestN
    rw [if_neg (by omega : ¬ (n ≤ 0)), if_pos hn]
  · intro key n hn1 hnM
    obtain ⟨l, hl, hlen, _, _, _⟩ :=
      getClosestN_spec st key n hnd h1 hcov hplen hP hmem hn1 hnM
    exact ⟨l, hl, hlen⟩

/-- C7 amended witness: the concrete a/b/c ring satisfies the conditions,
and the three behaviors hold on it at n = 0, n = 5 and n = 2. -/
theorem claim7_closest_errors_witness :
    (stSix.members.Nodup ∧ stSix.partitions.length = stSix.P ∧
      0 < stSix.P ∧ stSix.members ≠ []) ∧
    getClosestN stSix [0] 0 = some [] ∧
    getClosestN stSix [0] 5 = none ∧
    (∃ l, getClosestN stSix [0] ((2 : Nat) : Int) = some l ∧ l.length = 2) :=
  ⟨⟨by decide, by decide, by decide, by decide⟩,
   (claim7_closest_errors stSix (by decide) (by decide) (by decide) (by decide)
     (by decide) (by decide)).1 [0] 0 (by decide),
   (claim7_closest_errors stSix (by decide) (by decide) (by decide) (by decide)
     (by decide) (by decide)).2.1 [0] 5 (by decide),
   (claim7_closest_errors stSix (by decide) (by decide) (by decide) (by decide)
     (by decide) (by decide)).2.2 [0] 2 (by decide) (by decide)⟩

/-- C4 counterexample: on the concrete a/b/c ring, the key `[0]` is owned
by "c" (the primary), but `closest_n([0], 2)` returns "a" first: the
replica walk is anchored at the first ring position at or after
`hasher(owner.name)`, which need not belong to the owner, so the first
element is not the primary. -/
theorem claim4_counterexample :
    locateKey stSix [0] = some ("c") ∧
    (getClosestN stSix [0] 2).map List.head? = some (some ("a")) ∧
    ("a" : String) ≠ "c" :=
  ⟨rfl, rfl, by decide⟩

/-- C4 amended: dropping "primary first" (which the code does not
guarantee), the distinctness part holds: on every well-formed ring, for
`0 < n ≤ M`, `closest_n` returns `n` pairwise-distinct registered members,
and `closest_n(k, M)` returns every member exactly once. -/
theorem claim4_closest_distinct (st : RingState) (key : List Nat) (n : Nat)
    (hnd : st.members.Nodup)
    (h1 : ∀ h ∈ st.sorted, (ringLookup st.ring h).getD missingMember ∈ st.members)
    (hcov : ∀ m ∈ st.members,
      1 ≤ st.sorted.countP (fun h => (ringLookup st.ring h).getD missingMember == m))
    (hplen : st.partitions.length = st.P) (hP : 0 < st.P)
    (hmem : st.members ≠ [])
    (hn1 : 0 < n) (hnM : n ≤ st.members.length) :
    ∃ l, getClosestN st key (n : Int) = some l ∧ l.length = n ∧ l.Nodup ∧
      (∀ x ∈ l, x ∈ st.members) ∧
      (n = st.members.length → ∀ m, m ∈ l ↔ m ∈ st.members) :=
  getClosestN_spec st key n hnd h1 hcov hplen hP hmem hn1 hnM

/-- C4 amended witness: distinctness at n = 2 and the full permutation at
n = M = 3 on the concrete a/b/c ring. -/
theorem claim4_closest_distinct_witness :
    (stSix.members.Nodup ∧ 0 < stSix.P ∧ stSix.members ≠ [] ∧
      0 < 3 ∧ 3 ≤ stSix.members.length) ∧
    (∃ l, getClosestN stSix [0] ((3 : Nat) : Int) = some l ∧ l.length = 3 ∧
      l.Nodup ∧ (∀ x ∈ l, x ∈ stSix.members) ∧
      (3 = stSix.members.length → ∀ m, m ∈ l ↔ m ∈ stSix.members)) :=
  ⟨⟨by decide, by decide, by decide, by decide, by decide⟩,
   claim4_closest_distinct stSix [0] 3 (by decide) (by decide) (by decide)
     (by decide) (by decide) (by decide) (by decide) (by decide)⟩

/-- C8: adding a member whose name is already registered and removing a
name that is not registered are no-ops: the whole state — registry, ring,
sorted array, partition table and load map — is returned unchanged, with
no exception. -/
theorem claim8_idempotent (st : RingState) (name : String) :
    (name ∈ st.members → addMember st name = (false, st)) ∧
    (name ∉ st.members → removeMember st name = (false, st)) := by
  constructor
  · intro h
    unfold addMember
    rw [if_pos h]
  · intro h
    unfold removeMember
    rw [if_neg h]

/-- C8 witness: re-adding "a" to the a/b/c ring and removing the absent
"zz" both return the state unchanged. -/
theorem claim8_idempotent_witness :
    ("a" ∈ stSix.members ∧ addMember stSix ("a") = (false, stSix)) ∧
    ("zz" ∉ stSix.members ∧ removeMember stSix ("zz") = (false, stSix)) :=
  ⟨⟨by decide, (claim8_idempotent stSix ("a")).1 (by decide)⟩,
   ⟨by decide, (claim8_idempotent stSix ("zz")).2 (by decide)⟩⟩

end Consistent
